import Mathlib

/-!
Verification development for the `medallion` JWT/JWK library.

The Rust sources are shallowly embedded below: pure functions become Lean
functions over `List Nat` (bytes) and `List Char` (string contents); fallible
Rust code returns `Except`, and code that can `panic!`/`unwrap` on the error
path returns an outcome type with an explicit `panic` constructor.  The
external collaborators (OpenSSL digest/HMAC, base64, serde_json) are modelled
concretely: SHA-2/HMAC by their standard definitions (FIPS 180-4 / RFC 2104,
with the round constants computed from the fractional parts of prime roots),
base64 by RFC 4648's URL-safe alphabet, and serde_json by a JSON
renderer/parser over character lists.  The RSA primitive is kept abstract as
an explicit parameter structure, since the library only dispatches to it.
-/

set_option maxRecDepth 8192

namespace Medallion

/-- Byte strings (Rust `Vec<u8>` / `&[u8]`): naturals, each kept below 256. -/
abbrev Bytes := List Nat

/-- Rust `String`/`&str` contents as a list of Unicode scalar values. -/
abbrev Str := List Char

/-! ### 32/64-bit arithmetic helpers -/

/-- Truncate to a 32-bit word. -/
def w32 (x : Nat) : Nat := x % 4294967296

/-- Truncate to a 64-bit word. -/
def w64 (x : Nat) : Nat := x % 18446744073709551616

/-- Rotate a `w`-bit word right by `n` (for `x < 2 ^ w`, `n ≤ w`). -/
def rotr (w x n : Nat) : Nat := x / 2 ^ n + x % 2 ^ n * 2 ^ (w - n)

/-- Bitwise complement within `w` bits. -/
def bnot (w x : Nat) : Nat := x ^^^ (2 ^ w - 1)

/-- Big-endian bytes of `x`, exactly `n` bytes wide. -/
def beBytes (n x : Nat) : Bytes := (List.range n).map fun i => x / 256 ^ (n - 1 - i) % 256

/-- Read a big-endian byte list as a natural number (OpenSSL `BigNum::from_slice`). -/
def bytesBE (bs : Bytes) : Nat := bs.foldl (fun a b => a * 256 + b) 0

/-- Minimal big-endian byte representation (OpenSSL `BigNum::to_vec`; `0 ↦ []`). -/
def natBytesBEAux : Nat → Nat → Bytes
  | 0, _ => []
  | _ + 1, 0 => []
  | f + 1, x => natBytesBEAux f (x / 256) ++ [x % 256]

def natBytesBE (x : Nat) : Bytes := natBytesBEAux (x + 1) x

/-! ### SHA-2 round constants, computed from prime roots -/

/-- Trial-division primality check, adequate for the small table below. -/
def natPrime (n : Nat) : Bool :=
  decide (2 ≤ n) && (List.range n).all fun d => decide (d < 2) || decide (n % d ≠ 0)

/-- The first `k` primes. -/
def firstPrimes (k : Nat) : List Nat := ((List.range 500).filter natPrime).take k

/-- Largest `r` with `r ^ 3 ≤ n`, by fuelled binary search. -/
def icbrtAux (n : Nat) : Nat → Nat → Nat → Nat
  | 0, lo, _ => lo
  | f + 1, lo, hi =>
    if hi ≤ lo + 1 then lo
    else
      let mid := (lo + hi) / 2
      if mid ^ 3 ≤ n then icbrtAux n f mid hi else icbrtAux n f lo mid

def icbrt (n : Nat) : Nat := icbrtAux n 300 0 (n + 2)

/-- Largest `r` with `r ^ 2 ≤ n`, by fuelled binary search. -/
def isqrtAux (n : Nat) : Nat → Nat → Nat → Nat
  | 0, lo, _ => lo
  | f + 1, lo, hi =>
    if hi ≤ lo + 1 then lo
    else
      let mid := (lo + hi) / 2
      if mid ^ 2 ≤ n then isqrtAux n f mid hi else isqrtAux n f lo mid

def isqrt (n : Nat) : Nat := isqrtAux n 300 0 (n + 2)

/-- SHA-256 round constants: first 32 bits of the fractional parts of the cube
roots of the first 64 primes. -/
def sha256K : List Nat := (firstPrimes 64).map fun p => icbrt (p * 2 ^ 96) % 2 ^ 32

/-- SHA-256 initial state: fractional parts of the square roots of the first 8
primes. -/
def sha256H0 : List Nat := (firstPrimes 8).map fun p => isqrt (p * 2 ^ 64) % 2 ^ 32

/-- SHA-512 round constants: first 64 bits of the fractional parts of the cube
roots of the first 80 primes. -/
def sha512K : List Nat := (firstPrimes 80).map fun p => icbrt (p * 2 ^ 192) % 2 ^ 64

/-- SHA-512 initial state. -/
def sha512H0 : List Nat := (firstPrimes 8).map fun p => isqrt (p * 2 ^ 128) % 2 ^ 64

/-- SHA-384 initial state: fractional square roots of the 9th through 16th
primes. -/
def sha384H0 : List Nat :=
  (((List.range 500).filter natPrime).drop 8).take 8 |>.map fun p => isqrt (p * 2 ^ 128) % 2 ^ 64

/-! ### SHA-256 -/

def s256s0 (x : Nat) : Nat := rotr 32 x 7 ^^^ rotr 32 x 18 ^^^ x / 2 ^ 3
def s256s1 (x : Nat) : Nat := rotr 32 x 17 ^^^ rotr 32 x 19 ^^^ x / 2 ^ 10
def s256S0 (x : Nat) : Nat := rotr 32 x 2 ^^^ rotr 32 x 13 ^^^ rotr 32 x 22
def s256S1 (x : Nat) : Nat := rotr 32 x 6 ^^^ rotr 32 x 11 ^^^ rotr 32 x 25

/-- Message-schedule extension, accumulating words most-recent-first. -/
def schedRev (s0 s1 : Nat → Nat) (wdt : Nat) : Nat → List Nat → List Nat
  | 0, acc => acc
  | f + 1, acc =>
    schedRev s0 s1 wdt f
      ((s1 (acc.getD 1 0) + acc.getD 6 0 + s0 (acc.getD 14 0) + acc.getD 15 0) % 2 ^ wdt :: acc)

/-- One SHA-2 compression round on an 8-word state. -/
def sha2Round (wdt : Nat) (bS0 bS1 : Nat → Nat) (st : List Nat) (kw : Nat) : List Nat :=
  match st with
  | [a, b, c, d, e, f, g, h] =>
    let ch := e &&& f ^^^ bnot wdt e &&& g
    let maj := a &&& b ^^^ a &&& c ^^^ b &&& c
    let t1 := h + bS1 e + ch + kw
    let t2 := bS0 a + maj
    [(t1 + t2) % 2 ^ wdt, a, b, c, (d + t1) % 2 ^ wdt, e, f, g]
  | st => st

/-- Split a list into chunks of `n` (fuelled by list length). -/
def chunksAux {α : Type} (n : Nat) : Nat → List α → List (List α)
  | 0, _ => []
  | _, [] => []
  | f + 1, l => l.take n :: chunksAux n f (l.drop n)

def chunks {α : Type} (n : Nat) (l : List α) : List (List α) := chunksAux n l.length l

/-- Read consecutive `bw`-byte groups as big-endian words. -/
def bytesToWords (bw : Nat) (bs : Bytes) : List Nat := (chunks bw bs).map bytesBE

/-- SHA-2 message padding: `0x80`, zeros, then the bit length in `lenBytes`
big-endian bytes, to a multiple of `blockSize`. -/
def sha2Pad (msgLen blockSize lenBytes : Nat) : Bytes :=
  [128] ++ List.replicate ((blockSize - (msgLen + 1 + lenBytes) % blockSize) % blockSize) 0
    ++ beBytes lenBytes (msgLen * 8)

/-- Generic SHA-2 core over `wdt`-bit words. -/
def sha2 (wdt bw blockSize lenBytes rounds : Nat) (ks h0 : List Nat)
    (s0 s1 bS0 bS1 : Nat → Nat) (msg : Bytes) : Bytes :=
  let padded := msg ++ sha2Pad msg.length blockSize lenBytes
  let final := (chunks blockSize padded).foldl
    (fun st block =>
      let ws := (schedRev s0 s1 wdt (rounds - 16) (bytesToWords bw block).reverse).reverse
      let st2 := ((ks.zip ws).foldl (fun s kw => sha2Round wdt bS0 bS1 s (kw.1 + kw.2)) st)
      (st.zip st2).map fun p => (p.1 + p.2) % 2 ^ wdt)
    h0
  (final.map (beBytes bw)).flatten

def sha256 (msg : Bytes) : Bytes :=
  sha2 32 4 64 8 64 sha256K sha256H0 s256s0 s256s1 s256S0 s256S1 msg

def s512s0 (x : Nat) : Nat := rotr 64 x 1 ^^^ rotr 64 x 8 ^^^ x / 2 ^ 7
def s512s1 (x : Nat) : Nat := rotr 64 x 19 ^^^ rotr 64 x 61 ^^^ x / 2 ^ 6
def s512S0 (x : Nat) : Nat := rotr 64 x 28 ^^^ rotr 64 x 34 ^^^ rotr 64 x 39
def s512S1 (x : Nat) : Nat := rotr 64 x 14 ^^^ rotr 64 x 18 ^^^ rotr 64 x 41

def sha512 (msg : Bytes) : Bytes :=
  sha2 64 8 128 16 80 sha512K sha512H0 s512s0 s512s1 s512S0 s512S1 msg

/-- SHA-384: SHA-512 core with its own initial state, truncated to 48 bytes. -/
def sha384 (msg : Bytes) : Bytes :=
  (sha2 64 8 128 16 80 sha512K sha384H0 s512s0 s512s1 s512S0 s512S1 msg).take 48

/-! ### HMAC (RFC 2104), the model of OpenSSL's `Signer` over a `PKey::hmac` key -/

def hmac (hash : Bytes → Bytes) (blockSize : Nat) (key msg : Bytes) : Bytes :=
  let k0 := if blockSize < key.length then hash key else key
  let kp := k0 ++ List.replicate (blockSize - k0.length) 0
  hash (kp.map (fun b => b ^^^ 92) ++ hash (kp.map (fun b => b ^^^ 54) ++ msg))

/-- The digest choices `openssl::hash::MessageDigest` offers to this library. -/
inductive Digest where
  | sha256
  | sha384
  | sha512
deriving DecidableEq

/-- HMAC with the digest selected by a `MessageDigest` value. -/
def digestHmac : Digest → Bytes → Bytes → Bytes
  | .sha256, key, msg => hmac sha256 64 key msg
  | .sha384, key, msg => hmac sha384 128 key msg
  | .sha512, key, msg => hmac sha512 128 key msg

/-! ### base64, URL-safe alphabet (the `base64` crate's `URL_SAFE` and
`URL_SAFE_NO_PAD` configs; `URL_SAFE` pads with `=`, decoding tolerates the
padding's absence) -/

def b64Char (i : Nat) : Char :=
  if i < 26 then Char.ofNat (65 + i)
  else if i < 52 then Char.ofNat (97 + i - 26)
  else if i < 62 then Char.ofNat (48 + i - 52)
  else if i = 62 then Char.ofNat 45
  else Char.ofNat 95

/-- Unpadded base64url encoding. -/
def b64EncodeNoPad : Bytes → Str
  | [] => []
  | [b1] => [b64Char (b1 / 4), b64Char (b1 % 4 * 16)]
  | [b1, b2] => [b64Char (b1 / 4), b64Char (b1 % 4 * 16 + b2 / 16), b64Char (b2 % 16 * 4)]
  | b1 :: b2 :: b3 :: rest =>
    b64Char (b1 / 4) :: b64Char (b1 % 4 * 16 + b2 / 16) :: b64Char (b2 % 16 * 4 + b3 / 64)
      :: b64Char (b3 % 64) :: b64EncodeNoPad rest

/-- Padded base64url encoding (`URL_SAFE`): the unpadded form plus `=` filler. -/
def b64EncodePad (bs : Bytes) : Str :=
  b64EncodeNoPad bs ++
    (match bs.length % 3 with
     | 1 => ['=', '=']
     | 2 => ['=']
     | _ => [])

def b64Index (c : Char) : Option Nat :=
  let n := c.toNat
  if 65 ≤ n ∧ n ≤ 90 then some (n - 65)
  else if 97 ≤ n ∧ n ≤ 122 then some (n - 71)
  else if 48 ≤ n ∧ n ≤ 57 then some (n + 4)
  else if n = 45 then some 62
  else if n = 95 then some 63
  else none

def b64Indices : Str → Option (List Nat)
  | [] => some []
  | c :: rest =>
    match b64Index c, b64Indices rest with
    | some i, some is => some (i :: is)
    | _, _ => none

/-- Decode a list of 6-bit groups, 4 at a time; a single trailing group is
malformed. -/
def b64DecodeQuads : List Nat → Option Bytes
  | [] => some []
  | [_] => none
  | [i1, i2] => some [i1 * 4 + i2 / 16]
  | [i1, i2, i3] => some [i1 * 4 + i2 / 16, i2 % 16 * 16 + i3 / 4]
  | i1 :: i2 :: i3 :: i4 :: rest =>
    (b64DecodeQuads rest).map fun bs =>
      (i1 * 4 + i2 / 16) :: (i2 % 16 * 16 + i3 / 4) :: (i3 % 4 * 64 + i4) :: bs

/-- `decode_config(_, URL_SAFE)`: strip trailing padding, then decode. -/
def b64DecodeUrlSafe (s : Str) : Option Bytes :=
  match b64Indices ((s.reverse.dropWhile fun c => c = '=').reverse) with
  | none => none
  | some is => b64DecodeQuads is

/-- `decode_config(_, URL_SAFE_NO_PAD)`: any `=` is simply an invalid symbol. -/
def b64DecodeNoPad (s : Str) : Option Bytes :=
  match b64Indices s with
  | none => none
  | some is => b64DecodeQuads is

/-! ### UTF-8 (Rust `String::from_utf8` / `str::as_bytes`) -/

def utf8EncodeChar (c : Char) : Bytes :=
  if c.toNat < 128 then [c.toNat]
  else if c.toNat < 2048 then [192 + c.toNat / 64, 128 + c.toNat % 64]
  else if c.toNat < 65536 then
    [224 + c.toNat / 4096, 128 + c.toNat / 64 % 64, 128 + c.toNat % 64]
  else
    [240 + c.toNat / 262144, 128 + c.toNat / 4096 % 64, 128 + c.toNat / 64 % 64,
      128 + c.toNat % 64]

def utf8Encode (s : Str) : Bytes := (s.map utf8EncodeChar).flatten

/-- Whether `b` is a UTF-8 continuation byte, returning its payload. -/
def contByte (b : Nat) : Option Nat :=
  if 128 ≤ b ∧ b < 192 then some (b - 128) else none

/-- One UTF-8 character: the decoded scalar value and the remaining bytes.
Truncated and overlong forms, surrogates, and out-of-range code points are
all rejected, as Rust's `String::from_utf8` does. -/
def utf8Step : Bytes → Option (Nat × Bytes)
  | [] => none
  | b :: rest =>
    if b < 128 then some (b, rest)
    else if b < 192 then none
    else if b < 224 then
      match rest with
      | b2 :: rest2 =>
        match contByte b2 with
        | some p2 =>
          if 128 ≤ (b - 192) * 64 + p2 then some ((b - 192) * 64 + p2, rest2) else none
        | none => none
      | [] => none
    else if b < 240 then
      match rest with
      | b2 :: b3 :: rest3 =>
        match contByte b2, contByte b3 with
        | some p2, some p3 =>
          if 2048 ≤ (b - 224) * 4096 + p2 * 64 + p3 ∧
              ¬(55296 ≤ (b - 224) * 4096 + p2 * 64 + p3 ∧ (b - 224) * 4096 + p2 * 64 + p3 < 57344)
            then some ((b - 224) * 4096 + p2 * 64 + p3, rest3)
          else none
        | _, _ => none
      | _ => none
    else
      match rest with
      | b2 :: b3 :: b4 :: rest4 =>
        match contByte b2, contByte b3, contByte b4 with
        | some p2, some p3, some p4 =>
          if 65536 ≤ (b - 240) * 262144 + p2 * 4096 + p3 * 64 + p4 ∧
              (b - 240) * 262144 + p2 * 4096 + p3 * 64 + p4 < 1114112
            then some ((b - 240) * 262144 + p2 * 4096 + p3 * 64 + p4, rest4)
          else none
        | _, _, _ => none
      | _ => none

/-- Decode a whole byte string (fuelled by its length; each character
consumes at least one byte). -/
def utf8DecodeAux : Nat → Bytes → Option Str
  | _, [] => some []
  | 0, _ => none
  | f + 1, bs =>
    match utf8Step bs with
    | none => none
    | some (n, rest) => (utf8DecodeAux f rest).map (Char.ofNat n :: ·)

def utf8Decode (bs : Bytes) : Option Str := utf8DecodeAux bs.length bs

/-! ### JSON trees (the model of `serde_json::Value` and of serde's
struct codecs).  Lists are inlined as mutual inductives so that every
function below is plain structural recursion, which the kernel can evaluate. -/

mutual
inductive Json where
  | null : Json
  | bool (b : Bool) : Json
  | num (neg : Bool) (n : Nat) (nonint : Bool) : Json
  | str (s : Str) : Json
  | arr (items : JsonList) : Json
  | obj (members : JsonMembers) : Json
inductive JsonList where
  | nil : JsonList
  | cons (hd : Json) (tl : JsonList) : JsonList
inductive JsonMembers where
  | nil : JsonMembers
  | cons (k : Str) (v : Json) (tl : JsonMembers) : JsonMembers
end

def lbrace : Char := Char.ofNat 123
def rbrace : Char := Char.ofNat 125

/-- Decimal digits of `n`, most significant first (fuelled). -/
def natToStrAux : Nat → Nat → Str
  | 0, _ => []
  | f + 1, n => if n = 0 then [] else natToStrAux f (n / 10) ++ [Char.ofNat (48 + n % 10)]

def natToStr (n : Nat) : Str := if n = 0 then ['0'] else natToStrAux (n + 1) n

def hexDigit (n : Nat) : Char := if n < 10 then Char.ofNat (48 + n) else Char.ofNat (87 + n)

/-- serde_json's string escaping: quote, backslash, the five short control
escapes, `\u00XX` for other control characters, everything else verbatim. -/
def escapeChar (c : Char) : Str :=
  if c = '"' then ['\\', '"']
  else if c = '\\' then ['\\', '\\']
  else if c.toNat < 32 then
    match c.toNat with
    | 8 => ['\\', 'b']
    | 9 => ['\\', 't']
    | 10 => ['\\', 'n']
    | 12 => ['\\', 'f']
    | 13 => ['\\', 'r']
    | m => ['\\', 'u', '0', '0', hexDigit (m / 16), hexDigit (m % 16)]
  else [c]

def renderStrLit (s : Str) : Str := '"' :: (s.map escapeChar).flatten ++ ['"']

mutual
/-- `serde_json::to_string`, compact form. -/
def jsonRender : Json → Str
  | .null => "null".toList
  | .bool true => "true".toList
  | .bool false => "false".toList
  | .num neg n nonint =>
    (if neg then ['-'] else []) ++ natToStr n ++ (if nonint then ['.', '0'] else [])
  | .str s => renderStrLit s
  | .arr items => '[' :: (jsonRenderItems items ++ [']'])
  | .obj ms => lbrace :: (jsonRenderMembers ms ++ [rbrace])
def jsonRenderItems : JsonList → Str
  | .nil => []
  | .cons v tl => jsonRender v ++ jsonRenderItemsRest tl
def jsonRenderItemsRest : JsonList → Str
  | .nil => []
  | .cons v tl => ',' :: (jsonRender v ++ jsonRenderItemsRest tl)
def jsonRenderMembers : JsonMembers → Str
  | .nil => []
  | .cons k v tl => renderStrLit k ++ ':' :: (jsonRender v ++ jsonRenderMembersRest tl)
def jsonRenderMembersRest : JsonMembers → Str
  | .nil => []
  | .cons k v tl => ',' :: (renderStrLit k ++ ':' :: (jsonRender v ++ jsonRenderMembersRest tl))
end

/-! ### JSON parsing (the model of `serde_json::from_str`) -/

def isWs (c : Char) : Bool := c = ' ' || c = '\t' || c = '\n' || c = '\r'

def skipWs : Str → Str
  | [] => []
  | c :: rest => if isWs c then skipWs rest else c :: rest

def hexVal (c : Char) : Option Nat :=
  let n := c.toNat
  if 48 ≤ n ∧ n ≤ 57 then some (n - 48)
  else if 97 ≤ n ∧ n ≤ 102 then some (n - 87)
  else if 65 ≤ n ∧ n ≤ 70 then some (n - 55)
  else none

def hex4 : Str → Option (Nat × Str)
  | c1 :: c2 :: c3 :: c4 :: rest =>
    match hexVal c1, hexVal c2, hexVal c3, hexVal c4 with
    | some h1, some h2, some h3, some h4 => some (h1 * 4096 + h2 * 256 + h3 * 16 + h4, rest)
    | _, _, _, _ => none
  | _ => none

/-- One escape sequence after a backslash, Unicode escapes (with surrogate
pairs) included. -/
def parseEscape : Str → Option (Char × Str)
  | [] => none
  | e :: rest =>
    if e = '"' then some ('"', rest)
    else if e = '\\' then some ('\\', rest)
    else if e = '/' then some ('/', rest)
    else if e = 'b' then some (Char.ofNat 8, rest)
    else if e = 'f' then some (Char.ofNat 12, rest)
    else if e = 'n' then some (Char.ofNat 10, rest)
    else if e = 'r' then some (Char.ofNat 13, rest)
    else if e = 't' then some (Char.ofNat 9, rest)
    else if e = 'u' then
      match hex4 rest with
      | none => none
      | some (h, r2) =>
        if h < 55296 ∨ 57344 ≤ h then some (Char.ofNat h, r2)
        else if h < 56320 then
          match r2 with
          | b1 :: u1 :: r3 =>
            if b1 = '\\' ∧ u1 = 'u' then
              match hex4 r3 with
              | some (lo, r4) =>
                if 56320 ≤ lo ∧ lo < 57344 then
                  some (Char.ofNat (65536 + (h - 55296) * 1024 + (lo - 56320)), r4)
                else none
              | none => none
            else none
          | _ => none
        else none
    else none

/-- String-literal body after the opening quote; raw control characters are
rejected, as serde_json does. -/
def parseStrBody : Nat → Str → Option (Str × Str)
  | 0, _ => none
  | _ + 1, [] => none
  | f + 1, c :: rest =>
    if c = '"' then some ([], rest)
    else if c = '\\' then
      match parseEscape rest with
      | none => none
      | some (ch, r2) => (parseStrBody f r2).map fun p => (ch :: p.1, p.2)
    else if c.toNat < 32 then none
    else (parseStrBody f rest).map fun p => (c :: p.1, p.2)

def isDigit (c : Char) : Bool := 48 ≤ c.toNat && c.toNat ≤ 57

def digitsToNat (ds : Str) : Nat := ds.foldl (fun a c => a * 10 + (c.toNat - 48)) 0

/-- JSON integer part: `0`, or a nonzero digit followed by digits. -/
def parseIntDigits : Str → Option (Str × Str)
  | [] => none
  | c :: rest =>
    if c = '0' then some (['0'], rest)
    else if isDigit c then some (c :: rest.takeWhile isDigit, rest.dropWhile isDigit)
    else none

def parseNumNeg (s : Str) : Bool × Str :=
  match s with
  | c :: r => if c = '-' then (true, r) else (false, s)
  | [] => (false, s)

def parseNumFrac (s : Str) : Option (Bool × Str) :=
  match s with
  | c :: r =>
    if c = '.' then
      match r.takeWhile isDigit with
      | [] => none
      | _ => some (true, r.dropWhile isDigit)
    else some (false, s)
  | [] => some (false, s)

def parseNumExp (s : Str) : Option (Bool × Str) :=
  match s with
  | c :: r =>
    if c = 'e' ∨ c = 'E' then
      match r with
      | c2 :: r2 =>
        if c2 = '+' ∨ c2 = '-' then
          match r2.takeWhile isDigit with
          | [] => none
          | _ => some (true, r2.dropWhile isDigit)
        else
          match r.takeWhile isDigit with
          | [] => none
          | _ => some (true, r.dropWhile isDigit)
      | [] => none
    else some (false, s)
  | [] => some (false, s)

/-- JSON number grammar.  The numeric payload keeps the integer digits; a
fraction or exponent only marks the value as non-integral, which is all the
u64-typed struct fields downstream can observe. -/
def parseNumber (s : Str) : Option (Json × Str) :=
  match parseIntDigits (parseNumNeg s).2 with
  | none => none
  | some (ds, s2) =>
    match parseNumFrac s2 with
    | none => none
    | some (hasFrac, s3) =>
      match parseNumExp s3 with
      | none => none
      | some (hasExp, s4) =>
        some (.num (parseNumNeg s).1 (digitsToNat ds) (hasFrac || hasExp), s4)

def expectLit (lit : Str) (s : Str) (v : Json) : Option (Json × Str) :=
  if s.take lit.length = lit then some (v, s.drop lit.length) else none

mutual
/-- One JSON value, leading whitespace allowed (fuelled; the entry point
supplies fuel exceeding the input length, which the round-trip lemmas show is
always sufficient). -/
def parseValue : Nat → Str → Option (Json × Str)
  | 0, _ => none
  | f + 1, s =>
    match skipWs s with
    | [] => none
    | c :: rest =>
      if c = 'n' then expectLit ['u', 'l', 'l'] rest Json.null
      else if c = 't' then expectLit ['r', 'u', 'e'] rest (Json.bool true)
      else if c = 'f' then expectLit ['a', 'l', 's', 'e'] rest (Json.bool false)
      else if c = '"' then (parseStrBody rest.length rest).map fun p => (Json.str p.1, p.2)
      else if c = '[' then
        match skipWs rest with
        | x :: r2 =>
          if x = ']' then some (Json.arr .nil, r2)
          else
            match parseValue f rest with
            | none => none
            | some (v, r3) =>
              match parseItemsRest f r3 with
              | none => none
              | some (tl, r4) => some (Json.arr (.cons v tl), r4)
        | [] => none
      else if c = lbrace then
        match skipWs rest with
        | x :: r2 =>
          if x = rbrace then some (Json.obj .nil, r2)
          else
            match parseMember f rest with
            | none => none
            | some (k, v, r3) =>
              match parseMembersRest f r3 with
              | none => none
              | some (tl, r4) => some (Json.obj (.cons k v tl), r4)
        | [] => none
      else if c = '-' ∨ isDigit c then parseNumber (c :: rest)
      else none
/-- The members after the first of a non-empty array. -/
def parseItemsRest : Nat → Str → Option (JsonList × Str)
  | 0, _ => none
  | f + 1, s =>
    match skipWs s with
    | c :: rest =>
      if c = ']' then some (.nil, rest)
      else if c = ',' then
        match parseValue f rest with
        | none => none
        | some (v, r2) =>
          match parseItemsRest f r2 with
          | none => none
          | some (tl, r3) => some (.cons v tl, r3)
      else none
    | [] => none
/-- One `"key": value` object member. -/
def parseMember : Nat → Str → Option (Str × Json × Str)
  | 0, _ => none
  | f + 1, s =>
    match skipWs s with
    | c :: rest =>
      if c = '"' then
        match parseStrBody rest.length rest with
        | none => none
        | some (k, r2) =>
          match skipWs r2 with
          | x :: r3 =>
            if x = ':' then
              match parseValue f r3 with
              | none => none
              | some (v, r4) => some (k, v, r4)
            else none
          | [] => none
      else none
    | [] => none
/-- The members after the first of a non-empty object. -/
def parseMembersRest : Nat → Str → Option (JsonMembers × Str)
  | 0, _ => none
  | f + 1, s =>
    match skipWs s with
    | c :: rest =>
      if c = rbrace then some (.nil, rest)
      else if c = ',' then
        match parseMember f rest with
        | none => none
        | some (k, v, r2) =>
          match parseMembersRest f r2 with
          | none => none
          | some (tl, r3) => some (.cons k v tl, r3)
      else none
    | [] => none
end

/-- `serde_json::from_str` at the `Value` level: one value, then only
whitespace to the end of input. -/
def jsonParseTop (s : Str) : Option Json :=
  match parseValue (s.length + 1) s with
  | none => none
  | some (v, rest) => if skipWs rest = [] then some v else none

/-! ### Error kinds (`src/error.rs`) -/

inductive ErrK where
  | Custom (msg : Str)
  | Utf8
  | Base64
  | JSON
  | Crypto
deriving DecidableEq

/-! ### Algorithms and the header model (`src/header.rs`) -/

inductive Algorithm where
  | HS256
  | HS384
  | HS512
  | RS256
  | RS384
  | RS512
deriving DecidableEq

def algStr : Algorithm → Str
  | .HS256 => "HS256".toList
  | .HS384 => "HS384".toList
  | .HS512 => "HS512".toList
  | .RS256 => "RS256".toList
  | .RS384 => "RS384".toList
  | .RS512 => "RS512".toList

/-- serde's deserialization of the `Algorithm` unit-variant enum: a string
naming one of the six variants. -/
def algFromJson : Json → Option Algorithm
  | .str s =>
    if s = "HS256".toList then some .HS256
    else if s = "HS384".toList then some .HS384
    else if s = "HS512".toList then some .HS512
    else if s = "RS256".toList then some .RS256
    else if s = "RS384".toList then some .RS384
    else if s = "RS512".toList then some .RS512
    else none
  | _ => none

/-- `Header<T>` of `src/header.rs`, with the open extension type `T`
instantiated at JSON trees. -/
structure Header where
  alg : Algorithm
  headers : Option Json := none

/-! ### The payload model (`src/payload.rs` / `src/claims.rs` share this
field layout) -/

/-- `Payload<T>` of `src/payload.rs` (the identical standard fields appear as
`Claims<T>` in `src/claims.rs`), with the extension type instantiated at JSON
trees. -/
structure Payload where
  iss : Option Str := none
  sub : Option Str := none
  aud : Option Str := none
  exp : Option Nat := none
  nbf : Option Nat := none
  iat : Option Nat := none
  jti : Option Str := none
  claims : Option Json := none

/-! ### serde struct extraction from a parsed JSON tree.  Option-typed fields
default to `None` when absent, duplicate known fields are an error, unknown
fields are ignored — serde_derive's behaviour. -/

def jsonOptStr : Json → Option (Option Str)
  | .null => some none
  | .str s => some (some s)
  | _ => none

/-- serde's `Option<u64>` field visitor: a non-negative integral number that
fits 64 bits (larger or fractional numbers come back from the lexer as
floats, which fail u64 deserialization). -/
def jsonOptU64 : Json → Option (Option Nat)
  | .null => some none
  | .num neg n nonint =>
    if neg = false ∧ nonint = false ∧ n < 2 ^ 64 then some (some n) else none
  | _ => none

def jsonOptAny : Json → Option (Option Json)
  | .null => some none
  | v => some (some v)

structure HSlots where
  alg : Option Algorithm := none
  headers : Option (Option Json) := none

def headerSlots : JsonMembers → HSlots → Option HSlots
  | .nil, st => some st
  | .cons k v tl, st =>
    if k = "alg".toList then
      match st.alg with
      | some _ => none
      | none =>
        match algFromJson v with
        | none => none
        | some a => headerSlots tl { st with alg := some a }
    else if k = "headers".toList then
      match st.headers with
      | some _ => none
      | none =>
        match jsonOptAny v with
        | none => none
        | some x => headerSlots tl { st with headers := some x }
    else headerSlots tl st

def headerExtract : Json → Option Header
  | .obj ms =>
    match headerSlots ms {} with
    | none => none
    | some st =>
      match st.alg with
      | none => none
      | some a => some { alg := a, headers := st.headers.getD none }
  | _ => none

structure PSlots where
  iss : Option (Option Str) := none
  sub : Option (Option Str) := none
  aud : Option (Option Str) := none
  exp : Option (Option Nat) := none
  nbf : Option (Option Nat) := none
  iat : Option (Option Nat) := none
  jti : Option (Option Str) := none
  claims : Option (Option Json) := none

def payloadSlots : JsonMembers → PSlots → Option PSlots
  | .nil, st => some st
  | .cons k v tl, st =>
    if k = "iss".toList then
      match st.iss, jsonOptStr v with
      | none, some x => payloadSlots tl { st with iss := some x }
      | _, _ => none
    else if k = "sub".toList then
      match st.sub, jsonOptStr v with
      | none, some x => payloadSlots tl { st with sub := some x }
      | _, _ => none
    else if k = "aud".toList then
      match st.aud, jsonOptStr v with
      | none, some x => payloadSlots tl { st with aud := some x }
      | _, _ => none
    else if k = "exp".toList then
      match st.exp, jsonOptU64 v with
      | none, some x => payloadSlots tl { st with exp := some x }
      | _, _ => none
    else if k = "nbf".toList then
      match st.nbf, jsonOptU64 v with
      | none, some x => payloadSlots tl { st with nbf := some x }
      | _, _ => none
    else if k = "iat".toList then
      match st.iat, jsonOptU64 v with
      | none, some x => payloadSlots tl { st with iat := some x }
      | _, _ => none
    else if k = "jti".toList then
      match st.jti, jsonOptStr v with
      | none, some x => payloadSlots tl { st with jti := some x }
      | _, _ => none
    else if k = "claims".toList then
      match st.claims, jsonOptAny v with
      | none, some x => payloadSlots tl { st with claims := some x }
      | _, _ => none
    else payloadSlots tl st

def payloadExtract : Json → Option Payload
  | .obj ms =>
    (payloadSlots ms {}).map fun st =>
      { iss := st.iss.getD none, sub := st.sub.getD none, aud := st.aud.getD none
        exp := st.exp.getD none, nbf := st.nbf.getD none, iat := st.iat.getD none
        jti := st.jti.getD none, claims := st.claims.getD none }
  | _ => none

/-! ### The blanket `Component` impl (`src/lib.rs` lines 39–55): base64
(`URL_SAFE`) → UTF-8 → a single serde parse; serialization is a plain
`serde_json::to_string` of the struct, skipping the extension field. -/

def headerFromBase64C (raw : Str) : Except ErrK Header :=
  match b64DecodeUrlSafe raw with
  | none => .error .Base64
  | some bs =>
    match utf8Decode bs with
    | none => .error .Utf8
    | some chars =>
      match jsonParseTop chars with
      | none => .error .JSON
      | some v =>
        match headerExtract v with
        | none => .error .JSON
        | some h => .ok h

def payloadFromBase64C (raw : Str) : Except ErrK Payload :=
  match b64DecodeUrlSafe raw with
  | none => .error .Base64
  | some bs =>
    match utf8Decode bs with
    | none => .error .Utf8
    | some chars =>
      match jsonParseTop chars with
      | none => .error .JSON
      | some v =>
        match payloadExtract v with
        | none => .error .JSON
        | some p => .ok p

def headerBlanketJson (h : Header) : Json :=
  .obj (.cons "alg".toList (.str (algStr h.alg)) .nil)

/-- Blanket `Component::to_base64` for the header (total for these types:
`serde_json::to_string` of a plain struct cannot fail). -/
def headerToBase64C (h : Header) : Str :=
  b64EncodePad (utf8Encode (jsonRender (headerBlanketJson h)))

def mOpt {α : Type} (k : String) (f : α → Json) : Option α → JsonMembers → JsonMembers
  | none, tl => tl
  | some x, tl => .cons k.toList (f x) tl

/-- The payload's derived serde serialization: present standard fields in
declaration order, the extension field skipped. -/
def payloadBlanketJson (p : Payload) : Json :=
  .obj
    (mOpt "iss" (Json.str ·) p.iss
      (mOpt "sub" (Json.str ·) p.sub
        (mOpt "aud" (Json.str ·) p.aud
          (mOpt "exp" (Json.num false · false) p.exp
            (mOpt "nbf" (Json.num false · false) p.nbf
              (mOpt "iat" (Json.num false · false) p.iat
                (mOpt "jti" (Json.str ·) p.jti .nil)))))))

/-- Blanket `Component::to_base64` for the payload. -/
def payloadToBase64C (p : Payload) : Str :=
  b64EncodePad (utf8Encode (jsonRender (payloadBlanketJson p)))

/-! ### Sorted maps over `JsonMembers` (the model of `serde_json`'s
`BTreeMap`-backed `Map<String, Value>`) -/

def strLt : Str → Str → Bool
  | [], [] => false
  | [], _ :: _ => true
  | _ :: _, [] => false
  | a :: as, b :: bs =>
    if a.toNat < b.toNat then true else if b.toNat < a.toNat then false else strLt as bs

def mInsert : JsonMembers → Str → Json → JsonMembers
  | .nil, k, v => .cons k v .nil
  | .cons k0 v0 tl, k, v =>
    if strLt k k0 then .cons k v (.cons k0 v0 tl)
    else if k = k0 then .cons k v tl
    else .cons k0 v0 (mInsert tl k v)

/-- `BTreeMap::extend`: insert the right-hand entries in order, overwriting. -/
def mExtend (m : JsonMembers) : JsonMembers → JsonMembers
  | .nil => m
  | .cons k v tl => mExtend (mInsert m k v) tl

def mLookup : JsonMembers → Str → Option Json
  | .nil, _ => none
  | .cons k0 v0 tl, k => if k = k0 then some v0 else mLookup tl k

/-- The value of the last binding of `k` in an entry list (the one a
left-to-right overwriting merge retains). -/
def mLastLookup : JsonMembers → Str → Option Json
  | .nil, _ => none
  | .cons k0 v0 tl, k =>
    match mLastLookup tl k with
    | some v => some v
    | none => if k = k0 then some v0 else none

def mInsOpt {α : Type} (m : JsonMembers) (k : String) (f : α → Json) : Option α → JsonMembers
  | none => m
  | some x => mInsert m k.toList (f x)

/-- `serde_json::to_value(&payload)`: the present standard fields, keyed into
a sorted map (field order of insertion; the extension field is skipped). -/
def payloadStdMap (p : Payload) : JsonMembers :=
  mInsOpt
    (mInsOpt
      (mInsOpt
        (mInsOpt
          (mInsOpt
            (mInsOpt
              (mInsOpt .nil "iss" (Json.str ·) p.iss)
              "sub" (Json.str ·) p.sub)
            "aud" (Json.str ·) p.aud)
          "exp" (Json.num false · false) p.exp)
        "nbf" (Json.num false · false) p.nbf)
      "iat" (Json.num false · false) p.iat)
    "jti" (Json.str ·) p.jti

/-- `Payload::to_base64` (`src/payload.rs` lines 60–82): consolidate standard
and custom claims into one flat JSON object — custom entries are merged into
the standard-field map, so they overwrite on key collision — then render and
base64url-encode without padding.  (`serde_json::to_value` of the struct is
always an object, so the defensive "Could not access standard claims." branch
is unreachable and not modelled.) -/
def payloadToBase64 (p : Payload) : Except ErrK Str :=
  let claimsMap := payloadStdMap p
  match p.claims with
  | some custom =>
    match custom with
    | .obj customMap =>
      .ok (b64EncodeNoPad (utf8Encode (jsonRender (.obj (mExtend claimsMap customMap)))))
    | _ => .error (.Custom "Could not access custom claims.".toList)
  | none => .ok (b64EncodeNoPad (utf8Encode (jsonRender (.obj claimsMap))))

/-! ### Time validity (`src/payload.rs` lines 84–95).  `time::now()` is the
external clock, passed explicitly; `Timespec` compares lexicographically on
`(sec, nsec)` and the `u64` claim values pass through an `as i64` cast. -/

structure Timespec where
  sec : Int
  nsec : Int
deriving DecidableEq

def tsLt (a b : Timespec) : Bool :=
  decide (a.sec < b.sec) || (decide (a.sec = b.sec) && decide (a.nsec < b.nsec))

/-- Rust's `u64 as i64`: reinterpret the value as a signed 64-bit integer. -/
def i64OfU64 (n : Nat) : Int := if n < 2 ^ 63 then (n : Int) else (n : Int) - 2 ^ 64

/-- `Payload::verify`. -/
def payloadVerify (p : Payload) (now : Timespec) : Bool :=
  let nbfVerified :=
    match p.nbf with
    | some nbfSec => tsLt ⟨i64OfU64 nbfSec, 0⟩ now
    | none => true
  let expVerified :=
    match p.exp with
    | some expSec => tsLt now ⟨i64OfU64 expSec, 0⟩
    | none => true
  nbfVerified && expVerified

/-! ### Crypto dispatch (`src/crypt.rs`).  The HMAC side is modelled
concretely by `digestHmac`; the RSA primitive (OpenSSL PEM parsing, RSA
sign/verify) is an external collaborator, taken as an explicit parameter
structure.  Functions that `unwrap()` on their error path return `PanicOr`. -/

inductive PanicOr (α : Type) where
  | ok (a : α)
  | panic

/-- Outcome of Rust code that returns `Result` but can also panic on the way:
an `Ok` value, a returned error, or a panic. -/
inductive RResult (α : Type) where
  | ok (a : α)
  | err (e : ErrK)
  | panic

/-- The OpenSSL RSA collaborator, specified only at its interface: opaque
key handles, PEM parsers that can fail, and sign/verify primitives
(`Verifier::finish` returns `Result<bool>`, hence `Option Bool`). -/
structure RsaPrim where
  privFromPem : Bytes → Option Nat
  pubFromPem : Bytes → Option Nat
  sign : Digest → Nat → Bytes → Bytes
  verify : Digest → Nat → Bytes → Bytes → Option Bool

/-- `crypt::sign_hmac`: MAC over `data` with `key`, base64url-encoded with
the padded `URL_SAFE` config. -/
def cryptSignHmac (data : Str) (key : Bytes) (dg : Digest) : Str :=
  b64EncodePad (digestHmac dg key (utf8Encode data))

/-- `crypt::sign_rsa`: PEM-parse the private key (panicking on failure, as
the `unwrap` does), sign, base64url-encode. -/
def cryptSignRsa (prim : RsaPrim) (data : Str) (key : Bytes) (dg : Digest) : PanicOr Str :=
  match prim.privFromPem key with
  | none => .panic
  | some sk => .ok (b64EncodePad (prim.sign dg sk (utf8Encode data)))

/-- `crypt::verify_hmac`: base64-decode the candidate (unwrap: malformed
base64 panics), recompute the MAC, compare with `openssl::memcmp::eq` —
which itself panics when the lengths differ. -/
def cryptVerifyHmac (target data : Str) (key : Bytes) (dg : Digest) : PanicOr Bool :=
  match b64DecodeUrlSafe target with
  | none => .panic
  | some targetBytes =>
    let mac := digestHmac dg key (utf8Encode data)
    if mac.length = targetBytes.length then .ok (decide (mac = targetBytes)) else .panic

/-- `crypt::verify_rsa`: base64-decode the candidate, PEM-parse the public
key, run the primitive verifier; every error path is an `unwrap` panic. -/
def cryptVerifyRsa (prim : RsaPrim) (signature data : Str) (key : Bytes) (dg : Digest) :
    PanicOr Bool :=
  match b64DecodeUrlSafe signature with
  | none => .panic
  | some sigBytes =>
    match prim.pubFromPem key with
    | none => .panic
    | some pk =>
      match prim.verify dg pk (utf8Encode data) sigBytes with
      | none => .panic
      | some b => .ok b

/-- `crypt::sign`: the algorithm-indexed dispatch table. -/
def cryptSign (prim : RsaPrim) (data : Str) (key : Bytes) : Algorithm → PanicOr Str
  | .HS256 => .ok (cryptSignHmac data key .sha256)
  | .HS384 => .ok (cryptSignHmac data key .sha384)
  | .HS512 => .ok (cryptSignHmac data key .sha512)
  | .RS256 => cryptSignRsa prim data key .sha256
  | .RS384 => cryptSignRsa prim data key .sha384
  | .RS512 => cryptSignRsa prim data key .sha512

/-- `crypt::verify`: the algorithm-indexed dispatch table. -/
def cryptVerify (prim : RsaPrim) (target data : Str) (key : Bytes) : Algorithm → PanicOr Bool
  | .HS256 => cryptVerifyHmac target data key .sha256
  | .HS384 => cryptVerifyHmac target data key .sha384
  | .HS512 => cryptVerifyHmac target data key .sha512
  | .RS256 => cryptVerifyRsa prim target data key .sha256
  | .RS384 => cryptVerifyRsa prim target data key .sha384
  | .RS512 => cryptVerifyRsa prim target data key .sha512

/-! ### The token codec (`src/lib.rs`) -/

structure Token where
  raw : Option Str
  header : Header
  claims : Payload

/-- `Token::new`. -/
def Token.new (header : Header) (claims : Payload) : Token :=
  { raw := none, header := header, claims := claims }

/-- Rust `str::split('.')`: always at least one piece. -/
def splitOnChar (sep : Char) : Str → List Str
  | [] => [[]]
  | c :: rest =>
    if c = sep then [] :: splitOnChar sep rest
    else (c :: (splitOnChar sep rest).headD []) :: (splitOnChar sep rest).tail

/-- `Token::parse`: split on dots, decode pieces 0 and 1.  Field-initializer
order makes the header decode first, so a bad piece 0 is an error, while a
missing piece 1 is an out-of-bounds index — a panic. -/
def tokenParse (raw : Str) : RResult Token :=
  let pieces := splitOnChar '.' raw
  match headerFromBase64C (pieces.headD []) with
  | .error e => .err e
  | .ok h =>
    match pieces[1]? with
    | none => .panic
    | some piece1 =>
      match payloadFromBase64C piece1 with
      | .error e => .err e
      | .ok c => .ok { raw := some raw, header := h, claims := c }

/-- Rust `str::rsplitn(2, '.')`, giving `pieces[1] = data` (before the last
dot) and `pieces[0] = sig` (after it); `none` when there is no dot, in which
case the indexing of `pieces[1]` panics at the caller. -/
def lastDotSplit (s : Str) : Option (Str × Str) :=
  match s.reverse.dropWhile (fun c => ¬(c = '.')) with
  | [] => none
  | _ :: dataRev =>
    some (dataRev.reverse, (s.reverse.takeWhile fun c => ¬(c = '.')).reverse)

/-- `Token::verify_hmac`: `false` (not an error) without `raw`; otherwise
slice `raw` at the last dot and delegate to the HMAC verifier. -/
def tokenVerifyHmac (t : Token) (key : Bytes) (dg : Digest) : PanicOr Bool :=
  match t.raw with
  | none => .ok false
  | some raw =>
    match lastDotSplit raw with
    | none => .panic
    | some (data, sig) => cryptVerifyHmac sig data key dg

/-- `Token::verify_rsa`. -/
def tokenVerifyRsa (prim : RsaPrim) (t : Token) (key : Bytes) (dg : Digest) : PanicOr Bool :=
  match t.raw with
  | none => .ok false
  | some raw =>
    match lastDotSplit raw with
    | none => .panic
    | some (data, sig) => cryptVerifyRsa prim sig data key dg

/-- `Token::verify`: dispatch on the header's algorithm. -/
def tokenVerify (prim : RsaPrim) (t : Token) (key : Bytes) : PanicOr Bool :=
  match t.header.alg with
  | .HS256 => tokenVerifyHmac t key .sha256
  | .HS384 => tokenVerifyHmac t key .sha384
  | .HS512 => tokenVerifyHmac t key .sha512
  | .RS256 => tokenVerifyRsa prim t key .sha256
  | .RS384 => tokenVerifyRsa prim t key .sha384
  | .RS512 => tokenVerifyRsa prim t key .sha512

/-- `Token::signed_hmac`: re-encode header and claims through the blanket
`Component` impl, join with a dot, sign, append the signature. -/
def tokenSignedHmac (t : Token) (key : Bytes) (dg : Digest) : RResult Str :=
  let header := headerToBase64C t.header
  let claims := payloadToBase64C t.claims
  let data := header ++ '.' :: claims
  .ok (data ++ '.' :: cryptSignHmac data key dg)

/-- `Token::signed_rsa`. -/
def tokenSignedRsa (prim : RsaPrim) (t : Token) (key : Bytes) (dg : Digest) : RResult Str :=
  let header := headerToBase64C t.header
  let claims := payloadToBase64C t.claims
  let data := header ++ '.' :: claims
  match cryptSignRsa prim data key dg with
  | .panic => .panic
  | .ok sig => .ok (data ++ '.' :: sig)

/-- `Token::signed`. -/
def tokenSigned (prim : RsaPrim) (t : Token) (key : Bytes) : RResult Str :=
  match t.header.alg with
  | .HS256 => tokenSignedHmac t key .sha256
  | .HS384 => tokenSignedHmac t key .sha384
  | .HS512 => tokenSignedHmac t key .sha512
  | .RS256 => tokenSignedRsa prim t key .sha256
  | .RS384 => tokenSignedRsa prim t key .sha384
  | .RS512 => tokenSignedRsa prim t key .sha512

/-! ### JWK: RSA parameters (`src/jwk/rsa.rs`) -/

/-- `RsaParams`, all values base64url (no padding) big-endian byte strings. -/
structure RsaParams where
  n : Str
  e : Str
  d : Option Str := none
  p : Option Str := none
  q : Option Str := none
  dp : Option Str := none
  dq : Option Str := none
  qi : Option Str := none

/-- `encode_param`: `BigNum::to_vec` (minimal big-endian bytes) then
unpadded base64url. -/
def encodeParam (x : Nat) : Str := b64EncodeNoPad (natBytesBE x)

/-- `RsaParams::from_rsa` (`src/jwk/rsa.rs` lines 38–66), written over the
numeric values an `openssl::rsa::Rsa` exposes: `n`/`e` mandatory, and when
`d`, `p`, `q` are all present the three CRT parameters are derived exactly as
the source writes them — `dp = d % (p - 1)`, `dq = q % (q - 1)`,
`qi = (q - 1) % p`. -/
def fromRsa (n e d p q : Option Nat) : Except ErrK RsaParams :=
  match n, e with
  | some n, some e =>
    match d, p, q with
    | some d, some p, some q =>
      let dp := d % (p - 1)
      let dq := q % (q - 1)
      let qi := (q - 1) % p
      .ok
        { n := encodeParam n, e := encodeParam e, d := some (encodeParam d)
          p := some (encodeParam p), q := some (encodeParam q)
          dp := some (encodeParam dp), dq := some (encodeParam dq)
          qi := some (encodeParam qi) }
    | _, _, _ => .ok { n := encodeParam n, e := encodeParam e }
  | _, _ => .error (.Custom "Missing n or e parameter of public key!".toList)

/-- `recover_param`: strict no-pad base64url decode, big-endian bytes to a
number (`BigNum::from_slice`). -/
def recoverParam (s : Str) : Except ErrK Nat :=
  match b64DecodeNoPad s with
  | none => .error .Base64
  | some bs => .ok (bytesBE bs)

/-- `recover_optional_param`. -/
def recoverOptionalParam : Option Str → Except ErrK Nat
  | some s => recoverParam s
  | none => .error (.Custom "Missing parameter!".toList)

/-- `RsaParams::is_private_key`: all six private fields present. -/
def isPrivateKey (ps : RsaParams) : Bool :=
  ps.d.isSome && ps.p.isSome && ps.q.isSome && ps.dp.isSome && ps.dq.isSome && ps.qi.isSome

/-- The key material `Rsa::from_private_components` /
`Rsa::from_public_components` reconstruct. -/
inductive RsaKeyMaterial where
  | priv (n e d p q dp dq qi : Nat)
  | pub (n e : Nat)
deriving DecidableEq

/-- `RsaParams::to_rsa` (`src/jwk/rsa.rs` lines 78–91). -/
def toRsa (ps : RsaParams) : Except ErrK RsaKeyMaterial :=
  if isPrivateKey ps then
    match recoverParam ps.n with
    | .error err => .error err
    | .ok n =>
      match recoverParam ps.e with
      | .error err => .error err
      | .ok e =>
        match recoverOptionalParam ps.d with
        | .error err => .error err
        | .ok d =>
          match recoverOptionalParam ps.p with
          | .error err => .error err
          | .ok p =>
            match recoverOptionalParam ps.q with
            | .error err => .error err
            | .ok q =>
              match recoverOptionalParam ps.dp with
              | .error err => .error err
              | .ok dp =>
                match recoverOptionalParam ps.dq with
                | .error err => .error err
                | .ok dq =>
                  match recoverOptionalParam ps.qi with
                  | .error err => .error err
                  | .ok qi => .ok (.priv n e d p q dp dq qi)
  else
    match recoverParam ps.n with
    | .error err => .error err
    | .ok n =>
      match recoverParam ps.e with
      | .error err => .error err
      | .ok e => .ok (.pub n e)

/-! ### JWK: the generic key envelope (`src/jwk/mod.rs`) -/

inductive KeyType where
  | RSA
  | OCT
deriving DecidableEq

def keyTypeStr : KeyType → Str
  | .RSA => "RSA".toList
  | .OCT => "OCT".toList

/-- `Key<T>`, with the type-parameterized `params` modelled by its serialized
JSON value. -/
structure Key where
  kty : KeyType
  kid : Str
  params : Option Json

/-- The custom `Serialize for Key<T>` (`src/jwk/mod.rs` lines 98–119): with
params present and serializable as an object, one flat map of `kty`, `kid`
and the parameter entries; a non-object parameter value or absent params are
serialization errors with the source's messages. -/
def serializeKey (k : Key) : Except Str Json :=
  match k.params with
  | some params =>
    match params with
    | .obj paramsMap =>
      .ok (.obj (.cons "kty".toList (.str (keyTypeStr k.kty))
        (.cons "kid".toList (.str k.kid) paramsMap)))
    | _ => .error "Unable to access parameters!".toList
  | none => .error "No parameters!".toList

/-! ## Supporting lemmas -/

theorem charToNat_ofNat {n : Nat} (h : n.isValidChar) : (Char.ofNat n).toNat = n := by
  unfold Char.ofNat
  rw [dif_pos h]
  rfl

theorem char_toNat_lt (c : Char) : c.toNat < 1114112 := by
  have h := c.valid
  unfold UInt32.isValidChar Nat.isValidChar at h
  unfold Char.toNat
  rcases h with h | h <;> omega

theorem char_not_surrogate (c : Char) : ¬(55296 ≤ c.toNat ∧ c.toNat < 57344) := by
  have h := c.valid
  unfold UInt32.isValidChar Nat.isValidChar at h
  unfold Char.toNat
  rcases h with h | h <;> omega

theorem isValidChar_of_lt {n : Nat} (h : n < 55296) : n.isValidChar := Or.inl h

/-! ### UTF-8 round trip -/

theorem utf8EncodeChar_lt (c : Char) : ∀ b ∈ utf8EncodeChar c, b < 256 := by
  intro b hb
  have hv := char_toNat_lt c
  unfold utf8EncodeChar at hb
  by_cases h1 : c.toNat < 128
  · rw [if_pos h1] at hb
    simp only [List.mem_singleton] at hb
    omega
  · rw [if_neg h1] at hb
    by_cases h2 : c.toNat < 2048
    · rw [if_pos h2] at hb
      simp only [List.mem_cons, List.not_mem_nil, or_false] at hb
      rcases hb with rfl | rfl <;> omega
    · rw [if_neg h2] at hb
      by_cases h3 : c.toNat < 65536
      · rw [if_pos h3] at hb
        simp only [List.mem_cons, List.not_mem_nil, or_false] at hb
        rcases hb with rfl | rfl | rfl <;> omega
      · rw [if_neg h3] at hb
        simp only [List.mem_cons, List.not_mem_nil, or_false] at hb
        rcases hb with rfl | rfl | rfl | rfl <;> omega

theorem utf8Encode_lt (s : Str) : ∀ b ∈ utf8Encode s, b < 256 := by
  intro b hb
  unfold utf8Encode at hb
  rcases List.mem_flatten.mp hb with ⟨l, hl, hbl⟩
  rcases List.mem_map.mp hl with ⟨c, _, rfl⟩
  exact utf8EncodeChar_lt c b hbl

theorem contByte_payload (n : Nat) (h : n < 64) : contByte (128 + n) = some n := by
  unfold contByte
  rw [if_pos (by omega)]
  congr 1
  omega

theorem utf8Step_encodeChar (c : Char) (rest : Bytes) :
    utf8Step (utf8EncodeChar c ++ rest) = some (c.toNat, rest) := by
  have hv := char_toNat_lt c
  have hs := char_not_surrogate c
  unfold utf8EncodeChar
  by_cases h1 : c.toNat < 128
  · rw [if_pos h1]
    show utf8Step (c.toNat :: rest) = _
    simp only [utf8Step]
    rw [if_pos h1]
  · rw [if_neg h1]
    by_cases h2 : c.toNat < 2048
    · rw [if_pos h2]
      show utf8Step ((192 + c.toNat / 64) :: (128 + c.toNat % 64) :: rest) = _
      simp only [utf8Step]
      rw [if_neg (by omega), if_neg (by omega), if_pos (by omega),
        contByte_payload _ (by omega)]
      simp only
      rw [if_pos (by omega)]
      congr 2
      omega
    · rw [if_neg h2]
      by_cases h3 : c.toNat < 65536
      · rw [if_pos h3]
        show utf8Step ((224 + c.toNat / 4096) :: (128 + c.toNat / 64 % 64) ::
          (128 + c.toNat % 64) :: rest) = _
        simp only [utf8Step]
        rw [if_neg (by omega), if_neg (by omega), if_neg (by omega), if_pos (by omega),
          contByte_payload _ (by omega), contByte_payload _ (by omega)]
        simp only
        rw [if_pos (by constructor <;> omega)]
        congr 2
        omega
      · rw [if_neg h3]
        show utf8Step ((240 + c.toNat / 262144) :: (128 + c.toNat / 4096 % 64) ::
          (128 + c.toNat / 64 % 64) :: (128 + c.toNat % 64) :: rest) = _
        simp only [utf8Step]
        rw [if_neg (by omega), if_neg (by omega), if_neg (by omega), if_neg (by omega),
          contByte_payload _ (by omega), contByte_payload _ (by omega),
          contByte_payload _ (by omega)]
        simp only
        rw [if_pos (by constructor <;> omega)]
        congr 2
        omega

theorem utf8EncodeChar_ne_nil (c : Char) : utf8EncodeChar c ≠ [] := by
  unfold utf8EncodeChar
  by_cases h1 : c.toNat < 128
  · rw [if_pos h1]
    simp
  · rw [if_neg h1]
    by_cases h2 : c.toNat < 2048
    · rw [if_pos h2]
      simp
    · rw [if_neg h2]
      by_cases h3 : c.toNat < 65536
      · rw [if_pos h3]
        simp
      · rw [if_neg h3]
        simp

theorem utf8DecodeAux_cons (f b : Nat) (tl : Bytes) :
    utf8DecodeAux (f + 1) (b :: tl) =
      match utf8Step (b :: tl) with
      | none => none
      | some (n, rest) => (utf8DecodeAux f rest).map (Char.ofNat n :: ·) := rfl

theorem utf8DecodeAux_encode : (s : Str) → (f : Nat) → (utf8Encode s).length ≤ f →
    utf8DecodeAux f (utf8Encode s) = some s
  | [], f, _ => by
    cases f <;> rfl
  | c :: cs, f, hf => by
    have hne : utf8EncodeChar c ≠ [] := utf8EncodeChar_ne_nil c
    have hlen : 1 ≤ (utf8EncodeChar c).length := by
      cases h : utf8EncodeChar c
      · exact absurd h hne
      · simp
    have henc : utf8Encode (c :: cs) = utf8EncodeChar c ++ utf8Encode cs := by
      unfold utf8Encode
      simp
    rw [henc] at hf ⊢
    have hlen2 : (utf8EncodeChar c ++ utf8Encode cs).length
        = (utf8EncodeChar c).length + (utf8Encode cs).length := List.length_append _ _
    obtain ⟨g, rfl⟩ : ∃ g, f = g + 1 := ⟨f - 1, by omega⟩
    have hstep := utf8Step_encodeChar c (utf8Encode cs)
    have hnil : utf8EncodeChar c ++ utf8Encode cs ≠ [] := by
      cases h : utf8EncodeChar c
      · exact absurd h hne
      · simp [h]
    rcases h : utf8EncodeChar c ++ utf8Encode cs with _ | ⟨b, tl⟩
    · exact absurd h hnil
    · rw [utf8DecodeAux_cons, ← h, hstep]
      have ih := utf8DecodeAux_encode cs g (by omega)
      show (utf8DecodeAux g (utf8Encode cs)).map (Char.ofNat c.toNat :: ·) = _
      rw [ih, Char.ofNat_toNat]
      rfl

theorem utf8Decode_encode (s : Str) : utf8Decode (utf8Encode s) = some s :=
  utf8DecodeAux_encode s (utf8Encode s).length (Nat.le_refl _)

/-! ### base64 round trip and alphabet facts -/

theorem b64Index_b64Char : ∀ i, i < 64 → b64Index (b64Char i) = some i := by decide

theorem b64Char_toNat_notin (i : Nat) :
    (b64Char i).toNat ≠ 61 ∧ (b64Char i).toNat ≠ 46 := by
  unfold b64Char
  by_cases h1 : i < 26
  · rw [if_pos h1, charToNat_ofNat (isValidChar_of_lt (by omega))]
    omega
  · rw [if_neg h1]
    by_cases h2 : i < 52
    · rw [if_pos h2, charToNat_ofNat (isValidChar_of_lt (by omega))]
      omega
    · rw [if_neg h2]
      by_cases h3 : i < 62
      · rw [if_pos h3, charToNat_ofNat (isValidChar_of_lt (by omega))]
        omega
      · rw [if_neg h3]
        by_cases h4 : i = 62
        · rw [if_pos h4, charToNat_ofNat (isValidChar_of_lt (by omega))]
          omega
        · rw [if_neg h4, charToNat_ofNat (isValidChar_of_lt (by omega))]
          omega

theorem b64Char_ne_pad (i : Nat) : b64Char i ≠ '=' := by
  intro h
  exact (b64Char_toNat_notin i).1 (by rw [h]; rfl)

theorem b64Char_ne_dot (i : Nat) : b64Char i ≠ '.' := by
  intro h
  exact (b64Char_toNat_notin i).2 (by rw [h]; rfl)

theorem pad_mem (m : Nat) :
    ∀ x ∈ (match m with | 1 => ['=', '='] | 2 => ['='] | _ => ([] : Str)), x = '=' := by
  match m with
  | 0 => intro x hx; cases hx
  | 1 =>
    intro x hx
    simp only [List.mem_cons, List.not_mem_nil, or_false] at hx
    rcases hx with rfl | rfl <;> rfl
  | 2 =>
    intro x hx
    simp only [List.mem_cons, List.not_mem_nil, or_false] at hx
    rcases hx with rfl
    rfl
  | k + 3 => intro x hx; cases hx

theorem b64EncodeNoPad_alphabet : (bs : Bytes) → ∀ c ∈ b64EncodeNoPad bs, c ≠ '=' ∧ c ≠ '.'
  | [] => by
    intro c hc
    cases hc
  | [b1] => by
    intro c hc
    simp only [b64EncodeNoPad, List.mem_cons, List.not_mem_nil, or_false] at hc
    rcases hc with rfl | rfl <;> exact ⟨b64Char_ne_pad _, b64Char_ne_dot _⟩
  | [b1, b2] => by
    intro c hc
    simp only [b64EncodeNoPad, List.mem_cons, List.not_mem_nil, or_false] at hc
    rcases hc with rfl | rfl | rfl <;> exact ⟨b64Char_ne_pad _, b64Char_ne_dot _⟩
  | b1 :: b2 :: b3 :: rest => by
    intro c hc
    simp only [b64EncodeNoPad, List.mem_cons] at hc
    rcases hc with rfl | rfl | rfl | rfl | hc
    · exact ⟨b64Char_ne_pad _, b64Char_ne_dot _⟩
    · exact ⟨b64Char_ne_pad _, b64Char_ne_dot _⟩
    · exact ⟨b64Char_ne_pad _, b64Char_ne_dot _⟩
    · exact ⟨b64Char_ne_pad _, b64Char_ne_dot _⟩
    · exact b64EncodeNoPad_alphabet rest c hc

theorem b64EncodePad_ne_dot (bs : Bytes) : ∀ c ∈ b64EncodePad bs, c ≠ '.' := by
  intro c hc
  unfold b64EncodePad at hc
  rcases List.mem_append.mp hc with hc | hc
  · exact (b64EncodeNoPad_alphabet bs c hc).2
  · rw [pad_mem _ c hc]
    decide

theorem dropWhile_append_all {p : Char → Bool} (xs ys : Str) (h : ∀ x ∈ xs, p x = true) :
    (xs ++ ys).dropWhile p = ys.dropWhile p := by
  induction xs with
  | nil => rfl
  | cons c tl ih =>
    show List.dropWhile p (c :: (tl ++ ys)) = _
    rw [List.dropWhile_cons_of_pos (h c (by simp))]
    exact ih fun x hx => h x (by simp [hx])

theorem dropWhile_all_false {p : Char → Bool} (l : Str) (h : ∀ x ∈ l, p x = false) :
    l.dropWhile p = l := by
  induction l with
  | nil => rfl
  | cons c tl ih =>
    rw [List.dropWhile_cons_of_neg (by simp [h c (by simp)])]

theorem strip_encodePad (bs : Bytes) :
    ((b64EncodePad bs).reverse.dropWhile fun c => c = '=').reverse = b64EncodeNoPad bs := by
  have hne : ∀ x ∈ (b64EncodeNoPad bs).reverse, (fun c => decide (c = '=')) x = false := by
    intro x hx
    simp only [decide_eq_false_iff_not]
    exact ((b64EncodeNoPad_alphabet bs x) (List.mem_reverse.mp hx)).1
  have key : ∀ pad : Str, (∀ x ∈ pad, x = '=') →
      ((b64EncodeNoPad bs ++ pad).reverse.dropWhile fun c => c = '=').reverse
        = b64EncodeNoPad bs := by
    intro pad hpad
    rw [List.reverse_append, dropWhile_append_all _ _ (by
      intro x hx
      simp [hpad x (List.mem_reverse.mp hx)]), dropWhile_all_false _ hne, List.reverse_reverse]
  exact key _ (pad_mem _)

theorem b64Indices_cons (c : Char) (tl : Str) :
    b64Indices (c :: tl) =
      match b64Index c, b64Indices tl with
      | some i, some is => some (i :: is)
      | _, _ => none := rfl

theorem b64Indices_append (a b : Str) (ia : List Nat) (h : b64Indices a = some ia) :
    b64Indices (a ++ b) = (b64Indices b).map (ia ++ ·) := by
  induction a generalizing ia with
  | nil =>
    cases h
    rw [List.nil_append]
    cases hb : b64Indices b <;> simp
  | cons c tl ih =>
    rw [b64Indices_cons] at h
    cases hc : b64Index c <;> rw [hc] at h
    · cases h
    · cases htl : b64Indices tl <;> rw [htl] at h
      · cases h
      · cases h
        rw [List.cons_append, b64Indices_cons, hc, ih _ htl]
        cases hb : b64Indices b <;> rfl

theorem b64_noPad_rt : (bs : Bytes) → (∀ b ∈ bs, b < 256) →
    ∃ is, b64Indices (b64EncodeNoPad bs) = some is ∧ b64DecodeQuads is = some bs
  | [], _ => ⟨[], rfl, rfl⟩
  | [b1], h => by
    have h1 : b1 < 256 := h b1 (by simp)
    refine ⟨[b1 / 4, b1 % 4 * 16], ?_, ?_⟩
    · show b64Indices [b64Char (b1 / 4), b64Char (b1 % 4 * 16)] = _
      simp only [b64Indices]
      rw [b64Index_b64Char _ (by omega), b64Index_b64Char _ (by omega)]
    · show some [b1 / 4 * 4 + b1 % 4 * 16 / 16] = some [b1]
      have e1 : b1 / 4 * 4 + b1 % 4 * 16 / 16 = b1 := by omega
      rw [e1]
  | [b1, b2], h => by
    have h1 : b1 < 256 := h b1 (by simp)
    have h2 : b2 < 256 := h b2 (by simp)
    refine ⟨[b1 / 4, b1 % 4 * 16 + b2 / 16, b2 % 16 * 4], ?_, ?_⟩
    · show b64Indices [b64Char (b1 / 4), b64Char (b1 % 4 * 16 + b2 / 16),
        b64Char (b2 % 16 * 4)] = _
      simp only [b64Indices]
      rw [b64Index_b64Char _ (by omega), b64Index_b64Char _ (by omega),
        b64Index_b64Char _ (by omega)]
    · show some [b1 / 4 * 4 + (b1 % 4 * 16 + b2 / 16) / 16,
        (b1 % 4 * 16 + b2 / 16) % 16 * 16 + b2 % 16 * 4 / 4] = some [b1, b2]
      have e1 : b1 / 4 * 4 + (b1 % 4 * 16 + b2 / 16) / 16 = b1 := by omega
      have e2 : (b1 % 4 * 16 + b2 / 16) % 16 * 16 + b2 % 16 * 4 / 4 = b2 := by omega
      rw [e1, e2]
  | b1 :: b2 :: b3 :: rest, h => by
    have h1 : b1 < 256 := h b1 (by simp)
    have h2 : b2 < 256 := h b2 (by simp)
    have h3 : b3 < 256 := h b3 (by simp)
    obtain ⟨is, hi, hq⟩ := b64_noPad_rt rest fun b hb => h b (by simp [hb])
    refine ⟨b1 / 4 :: (b1 % 4 * 16 + b2 / 16) :: (b2 % 16 * 4 + b3 / 64) :: b3 % 64 :: is,
      ?_, ?_⟩
    · show b64Indices (b64Char (b1 / 4) :: b64Char (b1 % 4 * 16 + b2 / 16) ::
        b64Char (b2 % 16 * 4 + b3 / 64) :: b64Char (b3 % 64) :: b64EncodeNoPad rest) = _
      simp only [b64Indices]
      rw [b64Index_b64Char _ (by omega), b64Index_b64Char _ (by omega),
        b64Index_b64Char _ (by omega), b64Index_b64Char _ (by omega), hi]
    · show (b64DecodeQuads is).map _ = _
      rw [hq]
      show some _ = some (b1 :: b2 :: b3 :: rest)
      have e1 : b1 / 4 * 4 + (b1 % 4 * 16 + b2 / 16) / 16 = b1 := by omega
      have e2 : (b1 % 4 * 16 + b2 / 16) % 16 * 16 + (b2 % 16 * 4 + b3 / 64) / 4 = b2 := by
        omega
      have e3 : (b2 % 16 * 4 + b3 / 64) % 4 * 64 + b3 % 64 = b3 := by omega
      rw [e1, e2, e3]

theorem b64DecodeNoPad_encode (bs : Bytes) (h : ∀ b ∈ bs, b < 256) :
    b64DecodeNoPad (b64EncodeNoPad bs) = some bs := by
  obtain ⟨is, h1, h2⟩ := b64_noPad_rt bs h
  unfold b64DecodeNoPad
  rw [h1]
  exact h2

theorem b64DecodeUrlSafe_encodePad (bs : Bytes) (h : ∀ b ∈ bs, b < 256) :
    b64DecodeUrlSafe (b64EncodePad bs) = some bs := by
  obtain ⟨is, h1, h2⟩ := b64_noPad_rt bs h
  unfold b64DecodeUrlSafe
  rw [strip_encodePad, h1]
  exact h2

/-! ### Splitting on dots -/

theorem takeWhile_append_all {p : Char → Bool} (xs : Str) (ys : Str)
    (h : ∀ x ∈ xs, p x = true)
    (hys : ys = [] ∨ ∃ y tl, ys = y :: tl ∧ p y = false) :
    (xs ++ ys).takeWhile p = xs ∧ (xs ++ ys).dropWhile p = ys := by
  induction xs with
  | nil =>
    rcases hys with rfl | ⟨y, tl, rfl, hy⟩
    · exact ⟨rfl, rfl⟩
    · rw [List.nil_append]
      exact ⟨List.takeWhile_cons_of_neg (by simp [hy]),
        List.dropWhile_cons_of_neg (by simp [hy])⟩
  | cons c tl ih =>
    obtain ⟨h1, h2⟩ := ih fun x hx => h x (by simp [hx])
    rw [List.cons_append]
    refine ⟨?_, ?_⟩
    · rw [List.takeWhile_cons_of_pos (h c (by simp)), h1]
    · rw [List.dropWhile_cons_of_pos (h c (by simp)), h2]

theorem splitOnChar_cons (sep c : Char) (rest : Str) :
    splitOnChar sep (c :: rest) =
      if c = sep then [] :: splitOnChar sep rest
      else (c :: (splitOnChar sep rest).headD []) :: (splitOnChar sep rest).tail := rfl

theorem splitOnChar_no_sep (sep : Char) (a : Str) (h : ∀ c ∈ a, c ≠ sep) :
    splitOnChar sep a = [a] := by
  induction a with
  | nil => rfl
  | cons c tl ih =>
    rw [splitOnChar_cons, if_neg (h c (by simp)), ih fun x hx => h x (by simp [hx])]
    rfl

theorem splitOnChar_append (sep : Char) (a b : Str) (h : ∀ c ∈ a, c ≠ sep) :
    splitOnChar sep (a ++ sep :: b) = a :: splitOnChar sep b := by
  induction a with
  | nil =>
    rw [List.nil_append, splitOnChar_cons, if_pos rfl]
  | cons c tl ih =>
    rw [List.cons_append, splitOnChar_cons, if_neg (h c (by simp)),
      ih fun x hx => h x (by simp [hx])]
    rfl

theorem lastDotSplit_append (data sig : Str) (h : ∀ c ∈ sig, c ≠ '.') :
    lastDotSplit (data ++ '.' :: sig) = some (data, sig) := by
  have hrev : (data ++ '.' :: sig).reverse = sig.reverse ++ '.' :: data.reverse := by
    rw [List.reverse_append, List.reverse_cons, List.append_assoc]
    rfl
  have hall : ∀ x ∈ sig.reverse, (fun c => decide ¬(c = '.')) x = true := by
    intro x hx
    simp [h x (List.mem_reverse.mp hx)]
  obtain ⟨h1, h2⟩ := takeWhile_append_all sig.reverse ('.' :: data.reverse) hall
    (Or.inr ⟨'.', data.reverse, rfl, by simp⟩)
  unfold lastDotSplit
  rw [hrev, h1, h2]
  simp

/-! ### Decimal digit strings -/

theorem natToStrAux_zero (f : Nat) : natToStrAux f 0 = [] := by
  cases f <;> rfl

theorem digitsToNat_append_digit (ds : Str) (c : Char) :
    digitsToNat (ds ++ [c]) = digitsToNat ds * 10 + (c.toNat - 48) := by
  unfold digitsToNat
  rw [List.foldl_append]
  rfl

theorem natToStrAux_spec : (f n : Nat) → n ≤ f → 0 < n →
    ∃ d ds, natToStrAux f n = d :: ds ∧ isDigit d = true ∧ d ≠ '0' ∧
      (∀ c ∈ ds, isDigit c = true) ∧ digitsToNat (d :: ds) = n
  | 0, n, hf, hn => absurd hf (by omega)
  | f + 1, n, hf, hn => by
    have hd : ∀ m : Nat, m < 10 → isDigit (Char.ofNat (48 + m)) = true := by decide
    unfold natToStrAux
    rw [if_neg (by omega)]
    by_cases h10 : n < 10
    · have : n / 10 = 0 := by omega
      rw [this, natToStrAux_zero, List.nil_append]
      refine ⟨Char.ofNat (48 + n % 10), [], rfl, hd _ (by omega), ?_, by simp, ?_⟩
      · intro hc
        have := congrArg Char.toNat hc
        rw [charToNat_ofNat (isValidChar_of_lt (by omega))] at this
        have h0 : ('0').toNat = 48 := rfl
        omega
      · show digitsToNat [Char.ofNat (48 + n % 10)] = n
        unfold digitsToNat
        show 0 * 10 + ((Char.ofNat (48 + n % 10)).toNat - 48) = n
        rw [charToNat_ofNat (isValidChar_of_lt (by omega))]
        omega
    · obtain ⟨d, ds, he, hdig, hne, hall, hval⟩ :=
        natToStrAux_spec f (n / 10) (by omega) (by omega)
      rw [he]
      refine ⟨d, ds ++ [Char.ofNat (48 + n % 10)], by simp, hdig, hne, ?_, ?_⟩
      · intro c hc
        rcases List.mem_append.mp hc with hc | hc
        · exact hall c hc
        · simp only [List.mem_singleton] at hc
          subst hc
          exact hd _ (by omega)
      · rw [show d :: (ds ++ [Char.ofNat (48 + n % 10)])
            = (d :: ds) ++ [Char.ofNat (48 + n % 10)] from rfl,
          digitsToNat_append_digit, hval, charToNat_ofNat (isValidChar_of_lt (by omega))]
        omega

/-- The characters a rendered number must not run into, for the grammar to
stop where the renderer stopped. -/
def numSafe (rest : Str) : Prop :=
  match rest with
  | [] => True
  | c :: _ => isDigit c = false ∧ c ≠ '.' ∧ c ≠ 'e' ∧ c ≠ 'E'

theorem isDigit_ne (c : Char) (h : isDigit c = true) : c ≠ '-' := by
  intro hc
  subst hc
  cases h

theorem parseNumFrac_cons (c : Char) (r : Str) :
    parseNumFrac (c :: r) =
      if c = '.' then
        (match r.takeWhile isDigit with
         | [] => none
         | _ => some (true, r.dropWhile isDigit))
      else some (false, c :: r) := rfl

theorem parseNumExp_cons (c : Char) (r : Str) :
    parseNumExp (c :: r) =
      if c = 'e' ∨ c = 'E' then
        (match r with
         | c2 :: r2 =>
           if c2 = '+' ∨ c2 = '-' then
             (match r2.takeWhile isDigit with
              | [] => none
              | _ => some (true, r2.dropWhile isDigit))
           else
             (match r.takeWhile isDigit with
              | [] => none
              | _ => some (true, r.dropWhile isDigit))
         | [] => none)
      else some (false, c :: r) := rfl

theorem parseNumNeg_cons (c : Char) (r : Str) :
    parseNumNeg (c :: r) = if c = '-' then (true, r) else (false, c :: r) := rfl

theorem parseIntDigits_cons (c : Char) (r : Str) :
    parseIntDigits (c :: r) =
      if c = '0' then some (['0'], r)
      else if isDigit c = true then some (c :: r.takeWhile isDigit, r.dropWhile isDigit)
      else none := rfl

theorem parseNumFrac_safe (rest : Str) (hsafe : numSafe rest) :
    parseNumFrac rest = some (false, rest) := by
  cases rest with
  | nil => rfl
  | cons y tl =>
    rw [parseNumFrac_cons, if_neg hsafe.2.1]

theorem parseNumExp_safe (rest : Str) (hsafe : numSafe rest) :
    parseNumExp rest = some (false, rest) := by
  cases rest with
  | nil => rfl
  | cons y tl =>
    rw [parseNumExp_cons, if_neg (by
      intro hy
      rcases hy with hy | hy
      · exact hsafe.2.2.1 hy
      · exact hsafe.2.2.2 hy)]

theorem parseNumNeg_digit (c : Char) (tl : Str) (h : isDigit c = true) :
    parseNumNeg (c :: tl) = (false, c :: tl) := by
  rw [parseNumNeg_cons, if_neg (isDigit_ne c h)]

theorem natToStr_head (n : Nat) :
    ∃ d tl, natToStr n = d :: tl ∧ isDigit d = true := by
  by_cases h0 : n = 0
  · subst h0
    exact ⟨'0', [], rfl, rfl⟩
  · obtain ⟨d, ds, he, hdig, _, _, _⟩ := natToStrAux_spec (n + 1) n (by omega) (by omega)
    refine ⟨d, ds, ?_, hdig⟩
    unfold natToStr
    rw [if_neg h0, he]

theorem digitsToNat_natToStr (n : Nat) : digitsToNat (natToStr n) = n := by
  by_cases h0 : n = 0
  · subst h0
    rfl
  · obtain ⟨d, ds, he, _, _, _, hval⟩ := natToStrAux_spec (n + 1) n (by omega) (by omega)
    unfold natToStr
    rw [if_neg h0, he]
    exact hval

theorem parseIntDigits_natToStr (n : Nat) (rest : Str)
    (hysplit : rest = [] ∨ ∃ y tl, rest = y :: tl ∧ isDigit y = false) :
    parseIntDigits (natToStr n ++ rest) = some (natToStr n, rest) := by
  by_cases h0 : n = 0
  · subst h0
    show parseIntDigits ('0' :: rest) = _
    rw [parseIntDigits_cons, if_pos rfl]
    rfl
  · obtain ⟨d, ds, he, hdig, hne, hall, _⟩ :=
      natToStrAux_spec (n + 1) n (by omega) (by omega)
    have hns : natToStr n = d :: ds := by
      unfold natToStr
      rw [if_neg h0, he]
    obtain ⟨htw, hdw⟩ := takeWhile_append_all ds rest hall hysplit
    rw [hns, List.cons_append, parseIntDigits_cons, if_neg hne, if_pos hdig, htw, hdw]

theorem parseNumber_natToStr (n : Nat) (rest : Str) (hsafe : numSafe rest) :
    parseNumber (natToStr n ++ rest) = some (.num false n false, rest) := by
  have hysplit : rest = [] ∨ ∃ y tl, rest = y :: tl ∧ isDigit y = false := by
    cases rest with
    | nil => exact Or.inl rfl
    | cons y tl => exact Or.inr ⟨y, tl, rfl, hsafe.1⟩
  obtain ⟨d, tl0, hns, hd⟩ := natToStr_head n
  have heq : natToStr n ++ rest = d :: (tl0 ++ rest) := by
    rw [hns, List.cons_append]
  unfold parseNumber
  rw [heq, parseNumNeg_digit _ _ hd, ← heq]
  simp only [parseIntDigits_natToStr n rest hysplit, parseNumFrac_safe rest hsafe,
    parseNumExp_safe rest hsafe, digitsToNat_natToStr, Bool.or_self]

/-! ### String-literal escaping round trip -/

theorem parseStrBody_cons (f : Nat) (c : Char) (rest : Str) :
    parseStrBody (f + 1) (c :: rest) =
      if c = '"' then some ([], rest)
      else if c = '\\' then
        match parseEscape rest with
        | none => none
        | some (ch, r2) => (parseStrBody f r2).map fun p => (ch :: p.1, p.2)
      else if c.toNat < 32 then none
      else (parseStrBody f rest).map fun p => (c :: p.1, p.2) := rfl

theorem parseStrBody_escapeChar (c : Char) (f : Nat) (tail : Str) :
    parseStrBody (f + 1) (escapeChar c ++ tail) =
      (parseStrBody f tail).map fun p => (c :: p.1, p.2) := by
  by_cases hq : c = '"'
  · subst hq
    show parseStrBody (f + 1) ('\\' :: '"' :: tail) = _
    rw [parseStrBody_cons, if_neg (by decide), if_pos rfl]
    have he : parseEscape ('"' :: tail) = some ('"', tail) := rfl
    rw [he]
  · by_cases hb : c = '\\'
    · subst hb
      show parseStrBody (f + 1) ('\\' :: '\\' :: tail) = _
      rw [parseStrBody_cons, if_neg (by decide), if_pos rfl]
      have he : parseEscape ('\\' :: tail) = some ('\\', tail) := rfl
      rw [he]
    · by_cases hc : c.toNat < 32
      · obtain ⟨m, hm, rfl⟩ : ∃ m, m < 32 ∧ c = Char.ofNat m :=
          ⟨c.toNat, hc, (Char.ofNat_toNat c).symm⟩
        interval_cases m <;>
          simp [escapeChar, parseStrBody_cons, parseEscape, hex4, hexVal, hexDigit]
      · have he : escapeChar c = [c] := by
          unfold escapeChar
          rw [if_neg hq, if_neg hb, if_neg hc]
        rw [he]
        show parseStrBody (f + 1) (c :: tail) = _
        rw [parseStrBody_cons, if_neg hq, if_neg hb, if_neg hc]

theorem parseStrBody_render (s : Str) : ∀ (f : Nat) (rest : Str), s.length < f →
    parseStrBody f ((s.map escapeChar).flatten ++ '"' :: rest) = some (s, rest) := by
  induction s with
  | nil =>
    intro f rest hf
    obtain ⟨g, rfl⟩ : ∃ g, f = g + 1 := ⟨f - 1, by omega⟩
    show parseStrBody (g + 1) ('"' :: rest) = _
    rw [parseStrBody_cons, if_pos rfl]
  | cons c cs ih =>
    intro f rest hf
    obtain ⟨g, rfl⟩ : ∃ g, f = g + 1 := ⟨f - 1, by omega⟩
    rw [List.map_cons, List.flatten_cons, List.append_assoc, parseStrBody_escapeChar,
      ih g rest (by simp at hf; omega)]
    rfl

theorem escapeChar_ne_nil (c : Char) : escapeChar c ≠ [] := by
  by_cases hc : c.toNat < 32
  · obtain ⟨m, hm, rfl⟩ : ∃ m, m < 32 ∧ c = Char.ofNat m :=
      ⟨c.toNat, hc, (Char.ofNat_toNat c).symm⟩
    interval_cases m <;> decide
  · unfold escapeChar
    by_cases hq : c = '"'
    · rw [if_pos hq]
      simp
    · rw [if_neg hq]
      by_cases hb : c = '\\'
      · rw [if_pos hb]
        simp
      · rw [if_neg hb, if_neg hc]
        simp

theorem flatten_escape_length (s : Str) : s.length ≤ ((s.map escapeChar).flatten).length := by
  induction s with
  | nil => simp
  | cons c cs ih =>
    rw [List.map_cons, List.flatten_cons, List.length_append, List.length_cons]
    have h1 : 1 ≤ (escapeChar c).length := by
      cases he : escapeChar c
      · exact absurd he (escapeChar_ne_nil c)
      · simp
    omega

/-! ### JSON render/parse round trip -/

mutual
/-- Values in the image of the library's serializers: numbers are plain
u64-ranged naturals. -/
def canV : Json → Bool
  | .null => true
  | .bool _ => true
  | .num neg n nonint => !neg && !nonint && decide (n < 2 ^ 64)
  | .str _ => true
  | .arr items => canL items
  | .obj ms => canM ms
def canL : JsonList → Bool
  | .nil => true
  | .cons v tl => canV v && canL tl
def canM : JsonMembers → Bool
  | .nil => true
  | .cons _ v tl => canV v && canM tl
end

theorem skipWs_cons (c : Char) (rest : Str) :
    skipWs (c :: rest) = if isWs c then skipWs rest else c :: rest := rfl

theorem isDigit_dispatch (c : Char) (h : isDigit c = true) :
    isWs c = false ∧ c ≠ 'n' ∧ c ≠ 't' ∧ c ≠ 'f' ∧ c ≠ '"' ∧ c ≠ '[' ∧ c ≠ lbrace := by
  unfold isDigit at h
  simp only [Bool.and_eq_true, decide_eq_true_eq] at h
  refine ⟨?_, ?_, ?_, ?_, ?_, ?_, ?_⟩
  · unfold isWs
    simp only [Bool.or_eq_false_iff, decide_eq_false_iff_not]
    refine ⟨⟨⟨?_, ?_⟩, ?_⟩, ?_⟩ <;> intro hc <;> subst hc <;> exact absurd h (by decide)
  all_goals intro hc; subst hc; exact absurd h (by decide)

theorem parseValue_succ (f : Nat) (s : Str) :
    parseValue (f + 1) s =
      match skipWs s with
      | [] => none
      | c :: rest =>
        if c = 'n' then expectLit ['u', 'l', 'l'] rest Json.null
        else if c = 't' then expectLit ['r', 'u', 'e'] rest (Json.bool true)
        else if c = 'f' then expectLit ['a', 'l', 's', 'e'] rest (Json.bool false)
        else if c = '"' then (parseStrBody rest.length rest).map fun p => (Json.str p.1, p.2)
        else if c = '[' then
          match skipWs rest with
          | x :: r2 =>
            if x = ']' then some (Json.arr .nil, r2)
            else
              match parseValue f rest with
              | none => none
              | some (v, r3) =>
                match parseItemsRest f r3 with
                | none => none
                | some (tl, r4) => some (Json.arr (.cons v tl), r4)
          | [] => none
        else if c = lbrace then
          match skipWs rest with
          | x :: r2 =>
            if x = rbrace then some (Json.obj .nil, r2)
            else
              match parseMember f rest with
              | none => none
              | some (k, v, r3) =>
                match parseMembersRest f r3 with
                | none => none
                | some (tl, r4) => some (Json.obj (.cons k v tl), r4)
          | [] => none
        else if c = '-' ∨ isDigit c then parseNumber (c :: rest)
        else none := rfl

theorem parseItemsRest_succ (f : Nat) (s : Str) :
    parseItemsRest (f + 1) s =
      match skipWs s with
      | c :: rest =>
        if c = ']' then some (.nil, rest)
        else if c = ',' then
          match parseValue f rest with
          | none => none
          | some (v, r2) =>
            match parseItemsRest f r2 with
            | none => none
            | some (tl, r3) => some (.cons v tl, r3)
        else none
      | [] => none := rfl

theorem parseMember_succ (f : Nat) (s : Str) :
    parseMember (f + 1) s =
      match skipWs s with
      | c :: rest =>
        if c = '"' then
          match parseStrBody rest.length rest with
          | none => none
          | some (k, r2) =>
            match skipWs r2 with
            | x :: r3 =>
              if x = ':' then
                match parseValue f r3 with
                | none => none
                | some (v, r4) => some (k, v, r4)
              else none
            | [] => none
        else none
      | [] => none := rfl

theorem parseMembersRest_succ (f : Nat) (s : Str) :
    parseMembersRest (f + 1) s =
      match skipWs s with
      | c :: rest =>
        if c = rbrace then some (.nil, rest)
        else if c = ',' then
          match parseMember f rest with
          | none => none
          | some (k, v, r2) =>
            match parseMembersRest f r2 with
            | none => none
            | some (tl, r3) => some (.cons k v tl, r3)
        else none
      | [] => none := rfl

theorem parseValue_cons (f : Nat) (c : Char) (tail : Str) (hws : isWs c = false) :
    parseValue (f + 1) (c :: tail) =
      (if c = 'n' then expectLit ['u', 'l', 'l'] tail Json.null
      else if c = 't' then expectLit ['r', 'u', 'e'] tail (Json.bool true)
      else if c = 'f' then expectLit ['a', 'l', 's', 'e'] tail (Json.bool false)
      else if c = '"' then (parseStrBody tail.length tail).map fun p => (Json.str p.1, p.2)
      else if c = '[' then
        match skipWs tail with
        | x :: r2 =>
          if x = ']' then some (Json.arr .nil, r2)
          else
            match parseValue f tail with
            | none => none
            | some (v, r3) =>
              match parseItemsRest f r3 with
              | none => none
              | some (tl, r4) => some (Json.arr (.cons v tl), r4)
        | [] => none
      else if c = lbrace then
        match skipWs tail with
        | x :: r2 =>
          if x = rbrace then some (Json.obj .nil, r2)
          else
            match parseMember f tail with
            | none => none
            | some (k, v, r3) =>
              match parseMembersRest f r3 with
              | none => none
              | some (tl, r4) => some (Json.obj (.cons k v tl), r4)
        | [] => none
      else if c = '-' ∨ isDigit c then parseNumber (c :: tail)
      else none) := by
  rw [parseValue_succ, skipWs_cons, if_neg (by simp [hws])]

theorem numSafe_head (c : Char) (r : Str) (h1 : isDigit c = false) (h2 : c ≠ '.')
    (h3 : c ≠ 'e') (h4 : c ≠ 'E') : numSafe (c :: r) := ⟨h1, h2, h3, h4⟩

theorem numSafe_itemsTail (tl : JsonList) (rest : Str) :
    numSafe (jsonRenderItemsRest tl ++ ']' :: rest) := by
  cases tl with
  | nil => exact numSafe_head _ _ (by decide) (by decide) (by decide) (by decide)
  | cons v tl =>
    show numSafe ((',' :: _) ++ _)
    rw [List.cons_append]
    exact numSafe_head _ _ (by decide) (by decide) (by decide) (by decide)

theorem numSafe_membersTail (ms : JsonMembers) (rest : Str) :
    numSafe (jsonRenderMembersRest ms ++ rbrace :: rest) := by
  cases ms with
  | nil => exact numSafe_head _ _ (by decide) (by decide) (by decide) (by decide)
  | cons k v tl =>
    show numSafe ((',' :: _) ++ _)
    rw [List.cons_append]
    exact numSafe_head _ _ (by decide) (by decide) (by decide) (by decide)

theorem isDigit_dispatch2 (c : Char) (h : isDigit c = true) :
    c ≠ ']' ∧ c ≠ rbrace ∧ c ≠ ',' := by
  unfold isDigit at h
  simp only [Bool.and_eq_true, decide_eq_true_eq] at h
  refine ⟨?_, ?_, ?_⟩ <;> intro hc <;> subst hc <;> exact absurd h (by decide)

theorem jsonRender_num (n : Nat) : jsonRender (.num false n false) = natToStr n := by
  show ([] ++ (natToStr n ++ [])) = natToStr n
  simp

/-- Every canonically rendered value starts with a non-whitespace character
that is none of the closing/separator characters. -/
theorem jsonRender_head (v : Json) (hcan : canV v = true) :
    ∃ c tail, jsonRender v = c :: tail ∧ isWs c = false ∧ c ≠ ']' ∧ c ≠ rbrace := by
  cases v with
  | null => exact ⟨'n', _, rfl, by decide, by decide, by decide⟩
  | bool b =>
    cases b
    · exact ⟨'f', _, rfl, by decide, by decide, by decide⟩
    · exact ⟨'t', _, rfl, by decide, by decide, by decide⟩
  | num neg n nonint =>
    have hc : (neg = false ∧ nonint = false) ∧ n < 2 ^ 64 := by
      simpa [canV] using hcan
    obtain ⟨⟨rfl, rfl⟩, _⟩ := hc
    obtain ⟨d, tl0, hns, hd⟩ := natToStr_head n
    obtain ⟨hws, _, _, _, _, _, _⟩ := isDigit_dispatch d hd
    obtain ⟨hne1, hne2, _⟩ := isDigit_dispatch2 d hd
    exact ⟨d, tl0, by rw [jsonRender_num, hns], hws, hne1, hne2⟩
  | str s => exact ⟨'"', _, rfl, by decide, by decide, by decide⟩
  | arr items => exact ⟨'[', _, rfl, by decide, by decide, by decide⟩
  | obj ms => exact ⟨lbrace, _, rfl, by decide, by decide, by decide⟩

theorem parseItemsRest_cons (f : Nat) (c : Char) (tail : Str) (hws : isWs c = false) :
    parseItemsRest (f + 1) (c :: tail) =
      (if c = ']' then some (.nil, tail)
      else if c = ',' then
        match parseValue f tail with
        | none => none
        | some (v, r2) =>
          match parseItemsRest f r2 with
          | none => none
          | some (tl, r3) => some (.cons v tl, r3)
      else none) := by
  rw [parseItemsRest_succ, skipWs_cons, if_neg (by simp [hws])]

theorem parseMembersRest_cons (f : Nat) (c : Char) (tail : Str) (hws : isWs c = false) :
    parseMembersRest (f + 1) (c :: tail) =
      (if c = rbrace then some (.nil, tail)
      else if c = ',' then
        match parseMember f tail with
        | none => none
        | some (k, v, r2) =>
          match parseMembersRest f r2 with
          | none => none
          | some (tl, r3) => some (.cons k v tl, r3)
      else none) := by
  rw [parseMembersRest_succ, skipWs_cons, if_neg (by simp [hws])]

theorem parseMember_cons (f : Nat) (c : Char) (tail : Str) (hws : isWs c = false) :
    parseMember (f + 1) (c :: tail) =
      (if c = '"' then
        match parseStrBody tail.length tail with
        | none => none
        | some (k, r2) =>
          match skipWs r2 with
          | x :: r3 =>
            if x = ':' then
              match parseValue f r3 with
              | none => none
              | some (v, r4) => some (k, v, r4)
            else none
          | [] => none
      else none) := by
  rw [parseMember_succ, skipWs_cons, if_neg (by simp [hws])]

/-- One rendered `"key": value` object member parses back, given that the
rendered value itself parses back at the member's inner fuel. -/
theorem parseMember_render (k : Str) (v : Json) (tail : Str) (h : Nat)
    (hv : parseValue h (jsonRender v ++ tail) = some (v, tail)) :
    parseMember (h + 1) (renderStrLit k ++ ':' :: (jsonRender v ++ tail))
      = some (k, v, tail) := by
  have hshape : renderStrLit k ++ ':' :: (jsonRender v ++ tail)
      = '"' :: ((k.map escapeChar).flatten ++ '"' :: (':' :: (jsonRender v ++ tail))) := by
    unfold renderStrLit
    simp
  rw [hshape, parseMember_cons h '"' _ (by decide), if_pos rfl,
    parseStrBody_render k _ (':' :: (jsonRender v ++ tail)) (by
      have := flatten_escape_length k
      simp only [List.length_append, List.length_cons]
      omega)]
  show (match skipWs (':' :: (jsonRender v ++ tail)) with
    | x :: r3 =>
      if x = ':' then
        match parseValue h r3 with
        | none => none
        | some (v, r4) => some (k, v, r4)
      else none
    | [] => none) = _
  rw [show skipWs (':' :: (jsonRender v ++ tail)) = ':' :: (jsonRender v ++ tail) from rfl]
  show (if ':' = ':' then
      match parseValue h (jsonRender v ++ tail) with
      | none => none
      | some (v, r4) => some (k, v, r4)
    else none) = _
  rw [if_pos rfl, hv]

mutual

/-- A canonically rendered JSON value parses back, leaving the trailing
input untouched. -/
theorem rtV : (v : Json) → canV v = true → (rest : Str) → (f : Nat) → numSafe rest →
    (jsonRender v ++ rest).length < f → parseValue f (jsonRender v ++ rest) = some (v, rest)
  | .null, _, rest, f, _, hf => by
    obtain ⟨g, rfl⟩ : ∃ g, f = g + 1 := ⟨f - 1, by simp at hf; omega⟩
    rfl
  | .bool true, _, rest, f, _, hf => by
    obtain ⟨g, rfl⟩ : ∃ g, f = g + 1 := ⟨f - 1, by simp at hf; omega⟩
    rfl
  | .bool false, _, rest, f, _, hf => by
    obtain ⟨g, rfl⟩ : ∃ g, f = g + 1 := ⟨f - 1, by simp at hf; omega⟩
    rfl
  | .num neg n nonint, hcan, rest, f, hsafe, hf => by
    have hc : (neg = false ∧ nonint = false) ∧ n < 2 ^ 64 := by
      simpa [canV] using hcan
    obtain ⟨⟨rfl, rfl⟩, hn⟩ := hc
    obtain ⟨g, rfl⟩ : ∃ g, f = g + 1 := ⟨f - 1, by simp at hf; omega⟩
    obtain ⟨d, tl0, hns, hd⟩ := natToStr_head n
    obtain ⟨hws, hn1, hn2, hn3, hn4, hn5, hn6⟩ := isDigit_dispatch d hd
    have hshape : jsonRender (Json.num false n false) ++ rest = d :: (tl0 ++ rest) := by
      rw [jsonRender_num, hns, List.cons_append]
    rw [hshape, parseValue_cons g d (tl0 ++ rest) hws, if_neg hn1, if_neg hn2, if_neg hn3,
      if_neg hn4, if_neg hn5, if_neg hn6, if_pos (Or.inr hd), ← List.cons_append, ← hns,
      parseNumber_natToStr n rest hsafe]
  | .str s, _, rest, f, _, hf => by
    obtain ⟨g, rfl⟩ : ∃ g, f = g + 1 := ⟨f - 1, by simp at hf; omega⟩
    have hshape : jsonRender (Json.str s) ++ rest
        = '"' :: ((s.map escapeChar).flatten ++ '"' :: rest) := by
      show renderStrLit s ++ rest = _
      unfold renderStrLit
      simp
    rw [hshape, parseValue_cons g '"' _ (by decide), if_neg (by decide), if_neg (by decide),
      if_neg (by decide), if_pos rfl,
      parseStrBody_render s _ rest (by
        have := flatten_escape_length s
        simp only [List.length_append, List.length_cons]
        omega)]
    rfl
  | .arr .nil, _, rest, f, _, hf => by
    obtain ⟨g, rfl⟩ : ∃ g, f = g + 1 := ⟨f - 1, by simp at hf; omega⟩
    rfl
  | .arr (.cons v tl), hcan, rest, f, _, hf => by
    have hcv : canV v = true ∧ canL tl = true := by
      simpa [canV, canL] using hcan
    obtain ⟨g, rfl⟩ : ∃ g, f = g + 1 := ⟨f - 1, by simp at hf; omega⟩
    have hshape : jsonRender (Json.arr (.cons v tl)) ++ rest
        = '[' :: (jsonRender v ++ (jsonRenderItemsRest tl ++ ']' :: rest)) := by
      show ('[' :: ((jsonRender v ++ jsonRenderItemsRest tl) ++ [']'])) ++ rest = _
      simp
    have hlen : (jsonRender (Json.arr (.cons v tl)) ++ rest).length
        = 1 + (jsonRender v).length + (jsonRenderItemsRest tl).length + 1 + rest.length := by
      rw [hshape]
      simp only [List.length_cons, List.length_append]
      omega
    obtain ⟨c0, t0, hv0, hws0, hne0, _⟩ := jsonRender_head v hcv.1
    have hY : jsonRender v ++ (jsonRenderItemsRest tl ++ ']' :: rest)
        = c0 :: (t0 ++ (jsonRenderItemsRest tl ++ ']' :: rest)) := by
      rw [hv0, List.cons_append]
    have hsw : skipWs (jsonRender v ++ (jsonRenderItemsRest tl ++ ']' :: rest))
        = c0 :: (t0 ++ (jsonRenderItemsRest tl ++ ']' :: rest)) := by
      rw [hY, skipWs_cons, if_neg (by simp [hws0])]
    rw [hshape, parseValue_cons g '[' _ (by decide), if_neg (by decide), if_neg (by decide),
      if_neg (by decide), if_neg (by decide), if_pos rfl, hsw]
    show (if c0 = ']' then some (Json.arr .nil, t0 ++ (jsonRenderItemsRest tl ++ ']' :: rest))
      else
        match parseValue g (jsonRender v ++ (jsonRenderItemsRest tl ++ ']' :: rest)) with
        | none => none
        | some (v, r3) =>
          match parseItemsRest g r3 with
          | none => none
          | some (tl, r4) => some (Json.arr (.cons v tl), r4)) = _
    rw [if_neg hne0,
      rtV v hcv.1 (jsonRenderItemsRest tl ++ ']' :: rest) g (numSafe_itemsTail tl rest) (by
        rw [hlen] at hf
        simp only [List.length_append, List.length_cons]
        omega)]
    show (match parseItemsRest g (jsonRenderItemsRest tl ++ ']' :: rest) with
      | none => none
      | some (tl, r4) => some (Json.arr (.cons v tl), r4)) = _
    rw [rtL tl hcv.2 rest g (by
      rw [hlen] at hf
      have hv0len : (jsonRender v).length = t0.length + 1 := by
        rw [hv0]
        simp
      simp only [List.length_append, List.length_cons]
      omega)]
  | .obj .nil, _, rest, f, _, hf => by
    obtain ⟨g, rfl⟩ : ∃ g, f = g + 1 := ⟨f - 1, by simp at hf; omega⟩
    rfl
  | .obj (.cons k v tl), hcan, rest, f, _, hf => by
    have hcv : canV v = true ∧ canM tl = true := by
      simpa [canV, canM] using hcan
    obtain ⟨g, rfl⟩ : ∃ g, f = g + 1 := ⟨f - 1, by simp at hf; omega⟩
    have hshape : jsonRender (Json.obj (.cons k v tl)) ++ rest
        = lbrace :: (renderStrLit k ++ ':' ::
            (jsonRender v ++ (jsonRenderMembersRest tl ++ rbrace :: rest))) := by
      show (lbrace :: ((renderStrLit k ++ ':' :: (jsonRender v ++ jsonRenderMembersRest tl))
        ++ [rbrace])) ++ rest = _
      simp
    obtain ⟨h, rfl⟩ : ∃ h, g = h + 1 := by
      refine ⟨g - 1, ?_⟩
      have hf2 := hf
      rw [hshape] at hf2
      simp only [List.length_cons] at hf2
      omega
    have hmemshape : renderStrLit k ++ ':' ::
        (jsonRender v ++ (jsonRenderMembersRest tl ++ rbrace :: rest))
        = '"' :: ((k.map escapeChar).flatten ++ '"' :: (':' ::
            (jsonRender v ++ (jsonRenderMembersRest tl ++ rbrace :: rest)))) := by
      unfold renderStrLit
      simp
    have hsw : skipWs (renderStrLit k ++ ':' ::
        (jsonRender v ++ (jsonRenderMembersRest tl ++ rbrace :: rest)))
        = renderStrLit k ++ ':' ::
            (jsonRender v ++ (jsonRenderMembersRest tl ++ rbrace :: rest)) := by
      rw [hmemshape, skipWs_cons, if_neg (by decide)]
    have hnotbrace : (renderStrLit k ++ ':' ::
        (jsonRender v ++ (jsonRenderMembersRest tl ++ rbrace :: rest))).headD ' ' = '"' := by
      rw [hmemshape]
      rfl
    rw [hshape, parseValue_cons (h + 1) lbrace _ (by decide), if_neg (by decide),
      if_neg (by decide), if_neg (by decide), if_neg (by decide), if_neg (by decide),
      if_pos rfl, hsw, hmemshape]
    show (if '"' = rbrace then some (Json.obj .nil, (k.map escapeChar).flatten ++ '"' :: (':' ::
        (jsonRender v ++ (jsonRenderMembersRest tl ++ rbrace :: rest))))
      else
        match parseMember (h + 1) ('"' :: ((k.map escapeChar).flatten ++ '"' :: (':' ::
            (jsonRender v ++ (jsonRenderMembersRest tl ++ rbrace :: rest))))) with
        | none => none
        | some (k, v, r3) =>
          match parseMembersRest (h + 1) r3 with
          | none => none
          | some (tl, r4) => some (Json.obj (.cons k v tl), r4)) = _
    rw [if_neg (by decide), ← hmemshape,
      parseMember_render k v (jsonRenderMembersRest tl ++ rbrace :: rest) h
        (rtV v hcv.1 (jsonRenderMembersRest tl ++ rbrace :: rest) h
          (numSafe_membersTail tl rest) (by
            have hk := flatten_escape_length k
            rw [hshape, hmemshape] at hf
            simp only [List.length_cons, List.length_append] at hf ⊢
            omega))]
    show (match parseMembersRest (h + 1) (jsonRenderMembersRest tl ++ rbrace :: rest) with
      | none => none
      | some (tl, r4) => some (Json.obj (.cons k v tl), r4)) = _
    rw [rtM tl hcv.2 rest (h + 1) (by
      rw [hshape, hmemshape] at hf
      simp only [List.length_cons, List.length_append] at hf ⊢
      omega)]

/-- The rendered tail of a non-first array segment parses back. -/
theorem rtL : (l : JsonList) → canL l = true → (rest : Str) → (f : Nat) →
    (jsonRenderItemsRest l ++ ']' :: rest).length < f →
    parseItemsRest f (jsonRenderItemsRest l ++ ']' :: rest) = some (l, rest)
  | .nil, _, rest, f, hf => by
    obtain ⟨g, rfl⟩ : ∃ g, f = g + 1 := ⟨f - 1, by simp at hf; omega⟩
    rfl
  | .cons v tl, hcan, rest, f, hf => by
    have hcv : canV v = true ∧ canL tl = true := by
      simpa [canL] using hcan
    obtain ⟨g, rfl⟩ : ∃ g, f = g + 1 := ⟨f - 1, by simp at hf; omega⟩
    have hshape : jsonRenderItemsRest (.cons v tl) ++ ']' :: rest
        = ',' :: (jsonRender v ++ (jsonRenderItemsRest tl ++ ']' :: rest)) := by
      show (',' :: (jsonRender v ++ jsonRenderItemsRest tl)) ++ ']' :: rest = _
      simp
    rw [hshape, parseItemsRest_cons g ',' _ (by decide), if_neg (by decide), if_pos rfl,
      rtV v hcv.1 (jsonRenderItemsRest tl ++ ']' :: rest) g (numSafe_itemsTail tl rest) (by
        rw [hshape] at hf
        simp only [List.length_cons, List.length_append] at hf ⊢
        omega)]
    show (match parseItemsRest g (jsonRenderItemsRest tl ++ ']' :: rest) with
      | none => none
      | some (tl, r3) => some (JsonList.cons v tl, r3)) = _
    rw [rtL tl hcv.2 rest g (by
      rw [hshape] at hf
      simp only [List.length_cons, List.length_append] at hf ⊢
      omega)]

/-- The rendered tail of a non-first object segment parses back. -/
theorem rtM : (ms : JsonMembers) → canM ms = true → (rest : Str) → (f : Nat) →
    (jsonRenderMembersRest ms ++ rbrace :: rest).length < f →
    parseMembersRest f (jsonRenderMembersRest ms ++ rbrace :: rest) = some (ms, rest)
  | .nil, _, rest, f, hf => by
    obtain ⟨g, rfl⟩ : ∃ g, f = g + 1 := ⟨f - 1, by simp at hf; omega⟩
    rfl
  | .cons k v tl, hcan, rest, f, hf => by
    have hcv : canV v = true ∧ canM tl = true := by
      simpa [canM] using hcan
    obtain ⟨g, rfl⟩ : ∃ g, f = g + 1 := ⟨f - 1, by simp at hf; omega⟩
    have hshape : jsonRenderMembersRest (.cons k v tl) ++ rbrace :: rest
        = ',' :: (renderStrLit k ++ ':' ::
            (jsonRender v ++ (jsonRenderMembersRest tl ++ rbrace :: rest))) := by
      show (',' :: (renderStrLit k ++ ':' :: (jsonRender v ++ jsonRenderMembersRest tl)))
        ++ rbrace :: rest = _
      simp
    obtain ⟨h, rfl⟩ : ∃ h, g = h + 1 := by
      refine ⟨g - 1, ?_⟩
      have hf2 := hf
      rw [hshape] at hf2
      simp only [List.length_cons] at hf2
      omega
    rw [hshape, parseMembersRest_cons (h + 1) ',' _ (by decide), if_neg (by decide),
      if_pos rfl,
      parseMember_render k v (jsonRenderMembersRest tl ++ rbrace :: rest) h
        (rtV v hcv.1 (jsonRenderMembersRest tl ++ rbrace :: rest) h
          (numSafe_membersTail tl rest) (by
            have hk := flatten_escape_length k
            rw [hshape] at hf
            unfold renderStrLit at hf
            simp only [List.length_cons, List.length_append] at hf ⊢
            omega))]
    show (match parseMembersRest (h + 1) (jsonRenderMembersRest tl ++ rbrace :: rest) with
      | none => none
      | some (tl, r3) => some (JsonMembers.cons k v tl, r3)) = _
    rw [rtM tl hcv.2 rest (h + 1) (by
      rw [hshape] at hf
      unfold renderStrLit at hf
      simp only [List.length_cons, List.length_append] at hf ⊢
      omega)]

end

theorem jsonParseTop_render (v : Json) (hcan : canV v = true) :
    jsonParseTop (jsonRender v) = some v := by
  have h := rtV v hcan [] ((jsonRender v).length + 1) trivial (by simp)
  rw [List.append_nil] at h
  unfold jsonParseTop
  rw [h]
  rfl

/-! ### serde struct extraction on rendered structs -/

def u64Bounded : Option Nat → Prop
  | none => True
  | some n => n < 2 ^ 64

theorem headerExtract_blanket (h : Header) :
    headerExtract (headerBlanketJson h) = some { alg := h.alg, headers := none } := by
  obtain ⟨alg, hd⟩ := h
  cases alg <;> rfl

theorem canV_headerBlanket (h : Header) : canV (headerBlanketJson h) = true := rfl

theorem canV_payloadBlanket (p : Payload) (he : u64Bounded p.exp) (hn : u64Bounded p.nbf)
    (hi : u64Bounded p.iat) : canV (payloadBlanketJson p) = true := by
  obtain ⟨iss, sub, aud, exp, nbf, iat, jti, claims⟩ := p
  simp only [u64Bounded] at he hn hi
  cases iss <;> cases sub <;> cases aud <;>
    cases exp <;> cases nbf <;> cases iat <;> cases jti <;>
    simp_all [payloadBlanketJson, mOpt, canV, canM, u64Bounded]

theorem payloadExtract_blanket (p : Payload) (he : u64Bounded p.exp) (hn : u64Bounded p.nbf)
    (hi : u64Bounded p.iat) :
    payloadExtract (payloadBlanketJson p) = some { p with claims := none } := by
  obtain ⟨iss, sub, aud, exp, nbf, iat, jti, claims⟩ := p
  simp only [u64Bounded] at he hn hi
  cases iss <;> cases sub <;> cases aud <;>
    cases exp <;> cases nbf <;> cases iat <;> cases jti <;>
    simp_all [payloadBlanketJson, mOpt, payloadExtract, payloadSlots, jsonOptStr, jsonOptU64,
      jsonOptAny]

/-! ### Blanket `Component` codec round trips -/

theorem headerFromBase64C_roundtrip (h : Header) :
    headerFromBase64C (headerToBase64C h) = .ok { alg := h.alg, headers := none } := by
  unfold headerToBase64C headerFromBase64C
  rw [b64DecodeUrlSafe_encodePad _ (utf8Encode_lt _)]
  simp only [utf8Decode_encode, jsonParseTop_render _ (canV_headerBlanket h),
    headerExtract_blanket h]

theorem payloadFromBase64C_roundtrip (p : Payload) (he : u64Bounded p.exp)
    (hn : u64Bounded p.nbf) (hi : u64Bounded p.iat) :
    payloadFromBase64C (payloadToBase64C p) = .ok { p with claims := none } := by
  unfold payloadToBase64C payloadFromBase64C
  rw [b64DecodeUrlSafe_encodePad _ (utf8Encode_lt _)]
  simp only [utf8Decode_encode, jsonParseTop_render _ (canV_payloadBlanket p he hn hi),
    payloadExtract_blanket p he hn hi]

/-! ### Sorted-map lemmas (for the extension-overwrite claim) -/

theorem mInsert_cons (k0 : Str) (v0 : Json) (tl : JsonMembers) (k : Str) (v : Json) :
    mInsert (.cons k0 v0 tl) k v =
      if strLt k k0 then .cons k v (.cons k0 v0 tl)
      else if k = k0 then .cons k v tl
      else .cons k0 v0 (mInsert tl k v) := rfl

theorem mLookup_cons (k0 : Str) (v0 : Json) (tl : JsonMembers) (k : Str) :
    mLookup (.cons k0 v0 tl) k = if k = k0 then some v0 else mLookup tl k := rfl

theorem mLookup_mInsert_self : (m : JsonMembers) → (k : Str) → (v : Json) →
    mLookup (mInsert m k v) k = some v
  | .nil, k, v => by
    show mLookup (.cons k v .nil) k = _
    rw [mLookup_cons, if_pos rfl]
  | .cons k0 v0 tl, k, v => by
    rw [mInsert_cons]
    by_cases h1 : strLt k k0
    · rw [if_pos h1, mLookup_cons, if_pos rfl]
    · rw [if_neg h1]
      by_cases h2 : k = k0
      · rw [if_pos h2, mLookup_cons, if_pos rfl]
      · rw [if_neg h2, mLookup_cons, if_neg h2]
        exact mLookup_mInsert_self tl k v

theorem mLookup_mInsert_other : (m : JsonMembers) → (k k' : Str) → (v : Json) →
    k' ≠ k → mLookup (mInsert m k v) k' = mLookup m k'
  | .nil, k, k', v, hne => by
    show mLookup (.cons k v .nil) k' = _
    rw [mLookup_cons, if_neg hne]
  | .cons k0 v0 tl, k, k', v, hne => by
    rw [mInsert_cons]
    by_cases h1 : strLt k k0
    · rw [if_pos h1, mLookup_cons, if_neg hne]
    · rw [if_neg h1]
      by_cases h2 : k = k0
      · rw [if_pos h2, mLookup_cons]
        subst h2
        rw [mLookup_cons, if_neg hne, if_neg hne]
      · rw [if_neg h2, mLookup_cons, mLookup_cons]
        by_cases h3 : k' = k0
        · rw [if_pos h3, if_pos h3]
        · rw [if_neg h3, if_neg h3]
          exact mLookup_mInsert_other tl k k' v hne

theorem mExtend_cons (m : JsonMembers) (k0 : Str) (v0 : Json) (tl : JsonMembers) :
    mExtend m (.cons k0 v0 tl) = mExtend (mInsert m k0 v0) tl := rfl

theorem mLookup_mExtend : (c : JsonMembers) → (m : JsonMembers) → (k : Str) →
    mLookup (mExtend m c) k =
      (match mLastLookup c k with
       | some v => some v
       | none => mLookup m k)
  | .nil, m, k => by
    show mLookup m k = _
    rfl
  | .cons k0 v0 tl, m, k => by
    rw [mExtend_cons, mLookup_mExtend tl (mInsert m k0 v0) k]
    show _ = (match (match mLastLookup tl k with
      | some v => some v
      | none => if k = k0 then some v0 else none) with
      | some v => some v
      | none => mLookup m k)
    cases hl : mLastLookup tl k with
    | some v => rfl
    | none =>
      show mLookup (mInsert m k0 v0) k = (match (if k = k0 then some v0 else none) with
        | some v => some v
        | none => mLookup m k)
      by_cases h2 : k = k0
      · rw [if_pos h2]
        subst h2
        rw [mLookup_mInsert_self]
      · rw [if_neg h2]
        rw [mLookup_mInsert_other m k0 k v0 h2]

/-! ## Digest outputs are byte strings -/

theorem beBytes_lt (n x : Nat) : ∀ b ∈ beBytes n x, b < 256 := by
  intro b hb
  simp only [beBytes, List.mem_map] at hb
  obtain ⟨i, _, rfl⟩ := hb
  exact Nat.mod_lt _ (by norm_num)

theorem sha2_lt (wdt bw blockSize lenBytes rounds : Nat) (ks h0 : List Nat)
    (s0 s1 bS0 bS1 : Nat → Nat) (msg : Bytes) :
    ∀ b ∈ sha2 wdt bw blockSize lenBytes rounds ks h0 s0 s1 bS0 bS1 msg, b < 256 := by
  intro b hb
  simp only [sha2, List.mem_flatten, List.mem_map] at hb
  obtain ⟨l, ⟨w, hw, rfl⟩, hbl⟩ := hb
  exact beBytes_lt _ _ b hbl

theorem hmac_lt (hash : Bytes → Bytes) (blockSize : Nat)
    (hh : ∀ m, ∀ b ∈ hash m, b < 256) (key msg : Bytes) :
    ∀ b ∈ hmac hash blockSize key msg, b < 256 := by
  intro b hb
  simp only [hmac] at hb
  exact hh _ b hb

theorem digestHmac_lt (dg : Digest) (key msg : Bytes) :
    ∀ b ∈ digestHmac dg key msg, b < 256 := by
  cases dg
  · exact hmac_lt sha256 64
      (fun m => sha2_lt 32 4 64 8 64 sha256K sha256H0 s256s0 s256s1 s256S0 s256S1 m) key msg
  · exact hmac_lt sha384 128
      (fun m b hb => sha2_lt 64 8 128 16 80 sha512K sha384H0 s512s0 s512s1 s512S0 s512S1 m b
        (List.mem_of_mem_take hb)) key msg
  · exact hmac_lt sha512 128
      (fun m => sha2_lt 64 8 128 16 80 sha512K sha512H0 s512s0 s512s1 s512S0 s512S1 m) key msg

/-! ## Claim-level supporting definitions -/

/-- An inert RSA collaborator: every PEM parse and every primitive call
fails, which leaves the HMAC paths untouched. -/
def nullRsaPrim : RsaPrim :=
  { privFromPem := fun _ => none
    pubFromPem := fun _ => none
    sign := fun _ _ _ => []
    verify := fun _ _ _ _ => none }

/-- A usable RSA key pair behind `key` for digest `dg`: both PEM parses
succeed, signatures are byte strings, and the verifier accepts this signer's
output on every message. -/
def rsaKeyPairGood (prim : RsaPrim) (key : Bytes) (dg : Digest) : Prop :=
  ∃ sk pk, prim.privFromPem key = some sk ∧ prim.pubFromPem key = some pk ∧
    ∀ msg : Bytes, (∀ b ∈ prim.sign dg sk msg, b < 256) ∧
      prim.verify dg pk msg (prim.sign dg sk msg) = some true

/-- The key matches the header's algorithm: the HMAC algorithms accept any
byte string as the shared secret, the RSA ones need a working key pair for
the algorithm's digest. -/
def keyMatches (prim : RsaPrim) (key : Bytes) : Algorithm → Prop
  | .HS256 => True
  | .HS384 => True
  | .HS512 => True
  | .RS256 => rsaKeyPairGood prim key .sha256
  | .RS384 => rsaKeyPairGood prim key .sha384
  | .RS512 => rsaKeyPairGood prim key .sha512

theorem cryptSignHmac_ne_dot (data : Str) (key : Bytes) (dg : Digest) :
    ∀ c ∈ cryptSignHmac data key dg, c ≠ '.' := b64EncodePad_ne_dot _

/-! ## Assembling and re-reading a signed compact string -/

theorem tokenParse_assembled (h : Header) (p : Payload) (sig : Str)
    (hsig : ∀ c ∈ sig, c ≠ '.')
    (hbe : u64Bounded p.exp) (hbn : u64Bounded p.nbf) (hbi : u64Bounded p.iat) :
    tokenParse ((headerToBase64C h ++ '.' :: payloadToBase64C p) ++ '.' :: sig) =
      .ok { raw := some ((headerToBase64C h ++ '.' :: payloadToBase64C p) ++ '.' :: sig)
          , header := { alg := h.alg, headers := none }
          , claims := { p with claims := none } } := by
  have hhb : ∀ c ∈ headerToBase64C h, c ≠ '.' := b64EncodePad_ne_dot _
  have hpb : ∀ c ∈ payloadToBase64C p, c ≠ '.' := b64EncodePad_ne_dot _
  have hsplit : splitOnChar '.' ((headerToBase64C h ++ '.' :: payloadToBase64C p) ++ '.' :: sig)
      = [headerToBase64C h, payloadToBase64C p, sig] := by
    rw [List.append_assoc, List.cons_append, splitOnChar_append '.' _ _ hhb,
      splitOnChar_append '.' _ _ hpb, splitOnChar_no_sep '.' sig hsig]
  simp only [tokenParse, hsplit, List.headD_cons, List.getElem?_cons_succ,
    List.getElem?_cons_zero, headerFromBase64C_roundtrip h,
    payloadFromBase64C_roundtrip p hbe hbn hbi]

theorem cryptVerifyHmac_sign (data : Str) (key : Bytes) (dg : Digest) :
    cryptVerifyHmac (cryptSignHmac data key dg) data key dg = .ok true := by
  unfold cryptSignHmac cryptVerifyHmac
  rw [b64DecodeUrlSafe_encodePad _ (digestHmac_lt dg key (utf8Encode data))]
  simp

theorem tokenVerifyHmac_signed (t : Token) (key : Bytes) (dg : Digest) (data : Str)
    (hraw : t.raw = some (data ++ '.' :: cryptSignHmac data key dg)) :
    tokenVerifyHmac t key dg = .ok true := by
  simp only [tokenVerifyHmac, hraw,
    lastDotSplit_append data _ (cryptSignHmac_ne_dot data key dg)]
  exact cryptVerifyHmac_sign data key dg

/-! ## The claims -/

/-- The ASCII bytes of the string "secret". -/
def secretKey : Bytes := [115, 101, 99, 114, 101, 116]

def c1Payload : Payload := { exp := some 1 }

def c1Now : Timespec := ⟨2000000000, 0⟩

/-- C1, counterexample: a freshly signed and parsed HS256 token whose `exp`
lies in the past still verifies `true` at a later clock — `Token::verify`
returns the crypto check alone and never consults the payload's
time-validity check, so the claimed conjunction is wrong. -/
theorem c1_time_ignored :
    ∃ s t, tokenSigned nullRsaPrim (Token.new { alg := .HS256 } c1Payload) secretKey = .ok s ∧
      tokenParse s = .ok t ∧ payloadVerify t.claims c1Now = false ∧
      tokenVerify nullRsaPrim t secretKey = .ok true := by
  refine ⟨(headerToBase64C { alg := .HS256 } ++ '.' :: payloadToBase64C c1Payload) ++ '.' ::
      cryptSignHmac (headerToBase64C { alg := .HS256 } ++ '.' :: payloadToBase64C c1Payload)
        secretKey .sha256,
    { raw := some ((headerToBase64C { alg := .HS256 } ++ '.' :: payloadToBase64C c1Payload)
        ++ '.' :: cryptSignHmac
          (headerToBase64C { alg := .HS256 } ++ '.' :: payloadToBase64C c1Payload)
          secretKey .sha256)
    , header := { alg := .HS256, headers := none }
    , claims := { c1Payload with claims := none } },
    rfl,
    tokenParse_assembled { alg := .HS256 } c1Payload _ (cryptSignHmac_ne_dot _ _ _)
      (by show (1 : Nat) < 2 ^ 64; norm_num) trivial trivial,
    by decide, ?_⟩
  simp only [tokenVerify]
  apply tokenVerifyHmac_signed
  rfl

/-- C1 (amended): for a token with `raw` present, `Token::verify` is exactly
the crypto dispatch's verification over `raw` sliced at its last dot (a raw
with no dot panics); the payload's time-validity check plays no part. -/
theorem c1_verify_is_crypto_only (prim : RsaPrim) (t : Token) (key : Bytes) (r : Str)
    (hraw : t.raw = some r) :
    tokenVerify prim t key =
      match lastDotSplit r with
      | none => .panic
      | some (data, sig) => cryptVerify prim sig data key t.header.alg := by
  obtain ⟨raw, ⟨alg, hd⟩, claims⟩ := t
  simp only at hraw
  cases hraw
  cases alg <;>
    simp only [tokenVerify, tokenVerifyHmac, tokenVerifyRsa, cryptVerify]

/-- C1 witness: the amended statement at a concrete parsed-looking token. -/
theorem c1_verify_is_crypto_only_witness :
    tokenVerify nullRsaPrim
        { raw := some "ab".toList, header := { alg := .HS256 }, claims := {} } secretKey =
      match lastDotSplit "ab".toList with
      | none => .panic
      | some (data, sig) => cryptVerify nullRsaPrim sig data secretKey .HS256 :=
  c1_verify_is_crypto_only nullRsaPrim _ secretKey "ab".toList rfl

/-- The signing input of the jwt.io interoperability vector. -/
def c2Data : Str :=
  "eyJhbGciOiJIUzI1NiIsInR5cCI6IkpXVCJ9.eyJzdWIiOiIxMjM0NTY3ODkwIiwibmFtZSI6IkpvaG4gRG9lIiwiYWRtaW4iOnRydWV9".toList

theorem c2_vector_eval :
    cryptSignHmac c2Data secretKey .sha256 =
      "TJVA95OrM7E2cBab30RMHrHDcEfxjoYZgeFONFh7HgQ=".toList := by
  decide

/-- C2, counterexample: on the jwt.io vector the code's signature is not the
unpadded string the claim names — `sign_hmac` encodes with the padded
`URL_SAFE` config, so a trailing `=` is appended. -/
theorem c2_unpadded_refuted :
    cryptSignHmac c2Data secretKey .sha256 ≠
      "TJVA95OrM7E2cBab30RMHrHDcEfxjoYZgeFONFh7HgQ".toList := by
  rw [c2_vector_eval]
  decide

/-- C2 (amended): HMAC signing base64url-encodes the MAC with padding
(`URL_SAFE`), and on the jwt.io vector the produced signature is the padded
string ending in `=`. -/
theorem c2_padded_signature (data : Str) (key : Bytes) (dg : Digest) :
    cryptSignHmac data key dg = b64EncodePad (digestHmac dg key (utf8Encode data)) ∧
    cryptSignHmac c2Data secretKey .sha256 =
      "TJVA95OrM7E2cBab30RMHrHDcEfxjoYZgeFONFh7HgQ=".toList :=
  ⟨rfl, c2_vector_eval⟩

/-- C3 (code bug): on the private key (n,e,d,p,q) = (55,3,7,5,11) the code
derives dp = d mod (p−1) = 3 as the claim says, but its dq is q mod (q−1) = 1
instead of d mod (q−1) = 7 — the second CRT exponent is computed from q, not
d, and the two encoded values differ. -/
theorem c3_dq_derived_from_q :
    fromRsa (some 55) (some 3) (some 7) (some 5) (some 11) =
      .ok { n := encodeParam 55, e := encodeParam 3, d := some (encodeParam 7)
          , p := some (encodeParam 5), q := some (encodeParam 11)
          , dp := some (encodeParam (7 % 4)), dq := some (encodeParam (11 % 10))
          , qi := some (encodeParam (10 % 5)) } ∧
    (11 : Nat) % 10 = 1 ∧ (7 : Nat) % 10 = 7 ∧ encodeParam 1 ≠ encodeParam 7 := by
  refine ⟨rfl, rfl, rfl, ?_⟩
  decide

/-- C4, counterexample: a candidate signature that fails base64url decoding
makes the verifier panic (the decode `Result` is `unwrap`ped) — no crypto
error value is returned. -/
theorem c4_decode_failure_panics_concrete :
    cryptVerify nullRsaPrim "!!!".toList "data".toList secretKey .HS256 = .panic := rfl

/-- C4 (amended): for every candidate signature whose base64url decoding
fails, the crypto dispatch's verify panics, whatever the algorithm — neither
an error value nor `false` is produced. -/
theorem c4_decode_failure_panics (sig data : Str) (key : Bytes) (alg : Algorithm)
    (prim : RsaPrim) (hdec : b64DecodeUrlSafe sig = none) :
    cryptVerify prim sig data key alg = .panic := by
  cases alg <;> simp only [cryptVerify, cryptVerifyHmac, cryptVerifyRsa, hdec]

/-- C4 witness: the amended statement at a concrete malformed signature. -/
theorem c4_decode_failure_panics_witness :
    cryptVerify nullRsaPrim "%".toList "d".toList [] .HS384 = .panic :=
  c4_decode_failure_panics "%".toList "d".toList [] .HS384 nullRsaPrim (by decide)

/-- C5, counterexample: a one-part input whose sole piece is a valid header
makes `Token::parse` panic (`pieces[1]` is out of bounds) instead of
returning a decoding error. -/
theorem c5_missing_part_panics :
    tokenParse (headerToBase64C { alg := .HS256 }) = .panic := by
  have hsplit : splitOnChar '.' (headerToBase64C { alg := .HS256 }) =
      [headerToBase64C { alg := .HS256 }] :=
    splitOnChar_no_sep '.' _ (b64EncodePad_ne_dot _)
  simp only [tokenParse, hsplit, List.headD_cons, List.getElem?_cons_succ,
    List.getElem?_nil, headerFromBase64C_roundtrip ({ alg := .HS256 } : Header)]

/-- C5 (amended): on an input with no dot, `Token::parse` decodes the single
piece as the header — a bad piece surfaces as the header's decoding error,
but a piece that decodes reaches the out-of-bounds `pieces[1]` and panics;
there is no wrong-part-count decoding error. -/
theorem c5_one_part (raw : Str) (hnd : ∀ c ∈ raw, c ≠ '.') :
    tokenParse raw =
      match headerFromBase64C raw with
      | .error e => .err e
      | .ok _ => .panic := by
  have hsplit : splitOnChar '.' raw = [raw] := splitOnChar_no_sep '.' raw hnd
  simp only [tokenParse, hsplit, List.headD_cons, List.getElem?_cons_succ,
    List.getElem?_nil]

/-- C5 witness: the amended statement on a dot-free two-character input
(whose header piece decodes to non-JSON bytes, hence a JSON error). -/
theorem c5_one_part_witness :
    tokenParse "ab".toList =
      match headerFromBase64C "ab".toList with
      | .error e => RResult.err e
      | .ok _ => RResult.panic :=
  c5_one_part "ab".toList (by decide)

def c6Partial : RsaParams :=
  { n := encodeParam 1, e := encodeParam 1, d := some (encodeParam 1) }

/-- C6, counterexample: params with `d` present but `p,q,dp,dq,qi` absent are
partially private, yet `to_rsa` returns a public key built from `n`,`e`
instead of rejecting the partial private state. -/
theorem c6_partial_accepted :
    c6Partial.d.isSome = true ∧ c6Partial.p.isSome = false ∧
    isPrivateKey c6Partial = false ∧ toRsa c6Partial = .ok (.pub 1 1) := by
  refine ⟨rfl, rfl, rfl, ?_⟩
  rfl

/-- C6 (amended): reconstruction branches only on `is_private_key` (all six
private fields present): with any of the six absent — including partial
private population — the private fields are ignored and a public key is built
from `n` and `e` alone; partial state is never rejected. -/
theorem c6_partial_is_public (ps : RsaParams) (hpart : isPrivateKey ps = false) :
    toRsa ps =
      match recoverParam ps.n with
      | .error err => .error err
      | .ok n =>
        match recoverParam ps.e with
        | .error err => .error err
        | .ok e => .ok (.pub n e) := by
  unfold toRsa
  rw [hpart]
  rfl

/-- C6 witness: the amended statement at params carrying only `q` among the
private fields. -/
theorem c6_partial_is_public_witness :
    toRsa { n := encodeParam 3, e := encodeParam 5, q := some (encodeParam 7) } =
      match recoverParam (encodeParam 3) with
      | .error err => Except.error err
      | .ok n =>
        match recoverParam (encodeParam 5) with
        | .error err => Except.error err
        | .ok e => Except.ok (RsaKeyMaterial.pub n e) :=
  c6_partial_is_public _ rfl

/-- C7: constructing a fresh token, signing it, parsing the compact string
back and verifying with the matching key returns true, for every header and
payload (with numeric claims in serde's u64 range) and every key matching the
header's algorithm, given the claim's time premise — which the code's
`verify` in fact never consults. -/
theorem c7_sign_parse_verify (prim : RsaPrim) (h : Header) (p : Payload) (key : Bytes)
    (now : Timespec)
    (hbe : u64Bounded p.exp) (hbn : u64Bounded p.nbf) (hbi : u64Bounded p.iat)
    (hkey : keyMatches prim key h.alg)
    (_htime : (p.nbf = none ∧ p.exp = none) ∨ payloadVerify p now = true) :
    ∃ s t, tokenSigned prim (Token.new h p) key = .ok s ∧
      tokenParse s = .ok t ∧ tokenVerify prim t key = .ok true := by
  clear _htime
  obtain ⟨alg, hd⟩ := h
  cases alg
  case HS256 =>
    refine ⟨(headerToBase64C ⟨.HS256, hd⟩ ++ '.' :: payloadToBase64C p) ++ '.' ::
        cryptSignHmac (headerToBase64C ⟨.HS256, hd⟩ ++ '.' :: payloadToBase64C p) key .sha256,
      { raw := some ((headerToBase64C ⟨.HS256, hd⟩ ++ '.' :: payloadToBase64C p) ++ '.' ::
          cryptSignHmac (headerToBase64C ⟨.HS256, hd⟩ ++ '.' :: payloadToBase64C p) key .sha256)
      , header := { alg := .HS256, headers := none }
      , claims := { p with claims := none } },
      rfl,
      tokenParse_assembled ⟨.HS256, hd⟩ p _ (cryptSignHmac_ne_dot _ _ _) hbe hbn hbi, ?_⟩
    simp only [tokenVerify]
    apply tokenVerifyHmac_signed
    rfl
  case HS384 =>
    refine ⟨(headerToBase64C ⟨.HS384, hd⟩ ++ '.' :: payloadToBase64C p) ++ '.' ::
        cryptSignHmac (headerToBase64C ⟨.HS384, hd⟩ ++ '.' :: payloadToBase64C p) key .sha384,
      { raw := some ((headerToBase64C ⟨.HS384, hd⟩ ++ '.' :: payloadToBase64C p) ++ '.' ::
          cryptSignHmac (headerToBase64C ⟨.HS384, hd⟩ ++ '.' :: payloadToBase64C p) key .sha384)
      , header := { alg := .HS384, headers := none }
      , claims := { p with claims := none } },
      rfl,
      tokenParse_assembled ⟨.HS384, hd⟩ p _ (cryptSignHmac_ne_dot _ _ _) hbe hbn hbi, ?_⟩
    simp only [tokenVerify]
    apply tokenVerifyHmac_signed
    rfl
  case HS512 =>
    refine ⟨(headerToBase64C ⟨.HS512, hd⟩ ++ '.' :: payloadToBase64C p) ++ '.' ::
        cryptSignHmac (headerToBase64C ⟨.HS512, hd⟩ ++ '.' :: payloadToBase64C p) key .sha512,
      { raw := some ((headerToBase64C ⟨.HS512, hd⟩ ++ '.' :: payloadToBase64C p) ++ '.' ::
          cryptSignHmac (headerToBase64C ⟨.HS512, hd⟩ ++ '.' :: payloadToBase64C p) key .sha512)
      , header := { alg := .HS512, headers := none }
      , claims := { p with claims := none } },
      rfl,
      tokenParse_assembled ⟨.HS512, hd⟩ p _ (cryptSignHmac_ne_dot _ _ _) hbe hbn hbi, ?_⟩
    simp only [tokenVerify]
    apply tokenVerifyHmac_signed
    rfl
  case RS256 =>
    simp only [keyMatches, rsaKeyPairGood] at hkey
    obtain ⟨sk, pk, hsk, hpk, hgood⟩ := hkey
    refine ⟨(headerToBase64C ⟨.RS256, hd⟩ ++ '.' :: payloadToBase64C p) ++ '.' ::
        b64EncodePad (prim.sign .sha256 sk
          (utf8Encode (headerToBase64C ⟨.RS256, hd⟩ ++ '.' :: payloadToBase64C p))),
      { raw := some ((headerToBase64C ⟨.RS256, hd⟩ ++ '.' :: payloadToBase64C p) ++ '.' ::
          b64EncodePad (prim.sign .sha256 sk
            (utf8Encode (headerToBase64C ⟨.RS256, hd⟩ ++ '.' :: payloadToBase64C p))))
      , header := { alg := .RS256, headers := none }
      , claims := { p with claims := none } },
      ?_,
      tokenParse_assembled ⟨.RS256, hd⟩ p _ (b64EncodePad_ne_dot _) hbe hbn hbi, ?_⟩
    · simp only [tokenSigned, Token.new, tokenSignedRsa, cryptSignRsa, hsk]
    · have hb1 := (hgood (utf8Encode
        (headerToBase64C ⟨.RS256, hd⟩ ++ '.' :: payloadToBase64C p))).1
      have hb2 := (hgood (utf8Encode
        (headerToBase64C ⟨.RS256, hd⟩ ++ '.' :: payloadToBase64C p))).2
      simp only [tokenVerify, tokenVerifyRsa,
        lastDotSplit_append _ _ (b64EncodePad_ne_dot _), cryptVerifyRsa,
        b64DecodeUrlSafe_encodePad _ hb1, hpk, hb2]
  case RS384 =>
    simp only [keyMatches, rsaKeyPairGood] at hkey
    obtain ⟨sk, pk, hsk, hpk, hgood⟩ := hkey
    refine ⟨(headerToBase64C ⟨.RS384, hd⟩ ++ '.' :: payloadToBase64C p) ++ '.' ::
        b64EncodePad (prim.sign .sha384 sk
          (utf8Encode (headerToBase64C ⟨.RS384, hd⟩ ++ '.' :: payloadToBase64C p))),
      { raw := some ((headerToBase64C ⟨.RS384, hd⟩ ++ '.' :: payloadToBase64C p) ++ '.' ::
          b64EncodePad (prim.sign .sha384 sk
            (utf8Encode (headerToBase64C ⟨.RS384, hd⟩ ++ '.' :: payloadToBase64C p))))
      , header := { alg := .RS384, headers := none }
      , claims := { p with claims := none } },
      ?_,
      tokenParse_assembled ⟨.RS384, hd⟩ p _ (b64EncodePad_ne_dot _) hbe hbn hbi, ?_⟩
    · simp only [tokenSigned, Token.new, tokenSignedRsa, cryptSignRsa, hsk]
    · have hb1 := (hgood (utf8Encode
        (headerToBase64C ⟨.RS384, hd⟩ ++ '.' :: payloadToBase64C p))).1
      have hb2 := (hgood (utf8Encode
        (headerToBase64C ⟨.RS384, hd⟩ ++ '.' :: payloadToBase64C p))).2
      simp only [tokenVerify, tokenVerifyRsa,
        lastDotSplit_append _ _ (b64EncodePad_ne_dot _), cryptVerifyRsa,
        b64DecodeUrlSafe_encodePad _ hb1, hpk, hb2]
  case RS512 =>
    simp only [keyMatches, rsaKeyPairGood] at hkey
    obtain ⟨sk, pk, hsk, hpk, hgood⟩ := hkey
    refine ⟨(headerToBase64C ⟨.RS512, hd⟩ ++ '.' :: payloadToBase64C p) ++ '.' ::
        b64EncodePad (prim.sign .sha512 sk
          (utf8Encode (headerToBase64C ⟨.RS512, hd⟩ ++ '.' :: payloadToBase64C p))),
      { raw := some ((headerToBase64C ⟨.RS512, hd⟩ ++ '.' :: payloadToBase64C p) ++ '.' ::
          b64EncodePad (prim.sign .sha512 sk
            (utf8Encode (headerToBase64C ⟨.RS512, hd⟩ ++ '.' :: payloadToBase64C p))))
      , header := { alg := .RS512, headers := none }
      , claims := { p with claims := none } },
      ?_,
      tokenParse_assembled ⟨.RS512, hd⟩ p _ (b64EncodePad_ne_dot _) hbe hbn hbi, ?_⟩
    · simp only [tokenSigned, Token.new, tokenSignedRsa, cryptSignRsa, hsk]
    · have hb1 := (hgood (utf8Encode
        (headerToBase64C ⟨.RS512, hd⟩ ++ '.' :: payloadToBase64C p))).1
      have hb2 := (hgood (utf8Encode
        (headerToBase64C ⟨.RS512, hd⟩ ++ '.' :: payloadToBase64C p))).2
      simp only [tokenVerify, tokenVerifyRsa,
        lastDotSplit_append _ _ (b64EncodePad_ne_dot _), cryptVerifyRsa,
        b64DecodeUrlSafe_encodePad _ hb1, hpk, hb2]

/-- C7 witness: the round trip at a concrete HS256 token. -/
theorem c7_sign_parse_verify_witness :
    ∃ s t, tokenSigned nullRsaPrim (Token.new { alg := .HS256 } {}) secretKey = .ok s ∧
      tokenParse s = .ok t ∧ tokenVerify nullRsaPrim t secretKey = .ok true :=
  c7_sign_parse_verify nullRsaPrim { alg := .HS256 } {} secretKey ⟨0, 0⟩
    trivial trivial trivial trivial (Or.inl ⟨rfl, rfl⟩)

def c8Payload : Payload := { exp := some (2 ^ 63) }

def c8Now : Timespec := ⟨1700000000, 0⟩

/-- C8, counterexample: with exp = 2^63 and now = 1.7e9 seconds the claimed
reading holds (nbf absent, now < exp numerically), yet `verify` returns
false: the `as i64` cast wraps 2^63 to −2^63 before the comparison. -/
theorem c8_wraparound :
    c8Payload.nbf = none ∧ (1700000000 : Int) < (2 : Int) ^ 63 ∧
    c8Now.sec = 1700000000 ∧ c8Payload.exp = some (2 ^ 63) ∧
    payloadVerify c8Payload c8Now = false :=
  ⟨rfl, by norm_num, rfl, rfl, by decide⟩

/-- C8 (amended): the time check is the conjunction of the two strict
comparisons with absent fields unconstrained, but over the u64 claim values
reinterpreted as signed 64-bit integers (Rust's `as i64`), so values of 2^63
and above wrap to negative seconds. -/
theorem c8_verify_wrapped_iff (p : Payload) (now : Timespec) :
    payloadVerify p now = true ↔
      (∀ t, p.nbf = some t → tsLt ⟨i64OfU64 t, 0⟩ now = true) ∧
      (∀ t, p.exp = some t → tsLt now ⟨i64OfU64 t, 0⟩ = true) := by
  obtain ⟨iss, sub, aud, exp, nbf, iat, jti, claims⟩ := p
  simp only [payloadVerify]
  cases nbf <;> cases exp <;> simp

/-- C9: when a standard field and the extension object share a key, the
serialized flat object carries the extension's value — the merge runs after
the standard map is built and overwrites on collision. -/
theorem c9_extension_wins (p : Payload) (ext : JsonMembers) (k : Str) (v : Json)
    (hext : p.claims = some (.obj ext)) (hv : mLastLookup ext k = some v) :
    ∃ merged, payloadToBase64 p =
        .ok (b64EncodeNoPad (utf8Encode (jsonRender (.obj merged)))) ∧
      mLookup merged k = some v := by
  refine ⟨mExtend (payloadStdMap p) ext, ?_, ?_⟩
  · simp only [payloadToBase64, hext]
  · rw [mLookup_mExtend ext (payloadStdMap p) k, hv]

/-- C9 witness: standard sub = "alice" with extension sub = "bob" serializes
with sub = "bob". -/
theorem c9_extension_wins_witness :
    ∃ merged,
      payloadToBase64 { sub := some "alice".toList,
                        claims := some (.obj (.cons "sub".toList (.str "bob".toList) .nil)) } =
        .ok (b64EncodeNoPad (utf8Encode (jsonRender (.obj merged)))) ∧
      mLookup merged "sub".toList = some (.str "bob".toList) :=
  c9_extension_wins _ _ _ _ rfl rfl

/-- C10: serializing a `Key` whose params are absent fails with the
"No parameters!" error; no kty/kid-only object is produced. -/
theorem c10_no_params_error (k : Key) (hk : k.params = none) :
    serializeKey k = .error "No parameters!".toList := by
  simp only [serializeKey, hk]

/-- C10 witness: the statement at a concrete parameterless key. -/
theorem c10_no_params_error_witness :
    serializeKey { kty := .RSA, kid := "kid1".toList, params := none } =
      .error "No parameters!".toList :=
  c10_no_params_error _ rfl

end Medallion
